import Mathlib

/-!
# Frame delivery and pose reporting around ORB-SLAM3

A shallow embedding of the two drivers of the repository,

* `ORB_SLAM3/Examples/Monocular/mono_tum.cc` (sequence playback: `LoadImages` and `main`),
* `ORB_SLAM3_backup/Examples/Monocular/mono_webcam.cc` (live capture: `main`),

followed by theorems about them.

Conventions of the embedding.

* `double` and `float` values are modelled by the rational number they denote (exact
  arithmetic): rounding, signed zeros, infinities and NaN are outside the model.
* Text is `List Char`.
* The tracking engine, OpenCV, Sophus and Eigen are external.  What they return is supplied by
  an environment (`SeqEnv`, `LiveEnv`) or by a record of operations (`PoseOps`); the calls made
  on them are recorded in a trace of events.
* Files are explicit state: the index file is the text read from it, the live pose file is
  an `Option` of its content, and a write to it is taken to succeed.
* A loop that may fail to terminate takes a fuel argument and returns `none` when the fuel is
  used up.
-/

set_option autoImplicit false

namespace MonoTum

/-! ## Frame pacer (`mono_tum.cc`, lines 105-112) -/

/-- What the last two statements of the loop body do with the gap `T` and the measured
duration `ttrack`. -/
inductive Pace
  /-- `ttrack < T` is false: `usleep` is not called. -/
  | proceed
  /-- The call `usleep(usec)`. -/
  | sleep (usec : Nat)
  /-- The product `(T-ttrack)*1e6` does not fit `useconds_t`: the conversion is undefined. -/
  | undefinedConversion
  deriving DecidableEq, Repr

/-- Implicit conversion of the `double` argument of `usleep` to `useconds_t` (unsigned, 32
bits): the fractional part is discarded; the result is defined only when the truncated
value is representable. -/
def toUseconds (x : ℚ) : Option Nat :=
  if -1 < x ∧ x < 4294967296 then some ⌊x⌋₊ else none

/-- Lines 111-112: `if(ttrack<T) usleep((T-ttrack)*1e6);`. -/
def framePacer (T ttrack : ℚ) : Pace :=
  if ttrack < T then
    match toUseconds ((T - ttrack) * 1000000) with
    | some usec => Pace.sleep usec
    | none => Pace.undefinedConversion
  else Pace.proceed

/-- The requested suspension in seconds; `none` when the request is undefined. -/
def Pace.waitSeconds : Pace → Option ℚ
  | Pace.proceed => some 0
  | Pace.sleep usec => some ((usec : ℚ) / 1000000)
  | Pace.undefinedConversion => none

/-- Lines 105-109: the gap `T` for frame `ni`, where `tframe = vTimestamps[ni]`.
`nImages` is a signed `int`, so `nImages-1` is `-1` for an empty manifest.  Indexing is
`getD`; every index used is in range when `vTimestamps` has `nImages` entries and
`ni < nImages`. -/
def frameGap (vTimestamps : List ℚ) (nImages : Int) (ni : Nat) : ℚ :=
  let tframe := vTimestamps.getD ni 0
  if (ni : Int) < nImages - 1 then
    vTimestamps.getD (ni + 1) 0 - tframe
  else if 0 < ni then
    tframe - vTimestamps.getD (ni - 1) 0
  else 0

/-! ## Pose reporter (`mono_tum.cc`, lines 80-93) -/

/-- Modelled from the spec: the tracking states of the engine (`trackingState()` yields `OK`, `LOST`,
`NOT_INITIALIZED`, ...); the enumeration `ORB_SLAM3::Tracking::eTrackingState`
is declared in the engine, outside the two drivers.  `OTHER` stands for every further state. -/
inductive eTrackingState
  | OK
  | LOST
  | NOT_INITIALIZED
  | OTHER
  deriving DecidableEq, Repr

/-- Components `x y z` of an `Eigen::Vector3f`. -/
structure Vector3 where
  x : ℚ
  y : ℚ
  z : ℚ
  deriving DecidableEq

/-- Components `x y z w` of an `Eigen::Quaternionf`. -/
structure Quaternion where
  x : ℚ
  y : ℚ
  z : ℚ
  w : ℚ
  deriving DecidableEq

/-- The operations of Sophus and Eigen used by the pose reporter, on a transform type `SE3`
and a rotation-matrix type `Mat`: `T.inverse()`, `T.translation()`, `T.rotationMatrix()` and
the constructor `Eigen::Quaternionf q(M)`.  They are external to the drivers and are taken
as parameters. -/
structure PoseOps (SE3 Mat : Type) where
  inverse : SE3 → SE3
  translation : SE3 → Vector3
  rotationMatrix : SE3 → Mat
  quaternionOfMatrix : Mat → Quaternion

/-- Round a non-negative rational to the nearest natural number, ties to even. -/
def roundHalfEven (s : ℚ) : Nat :=
  let f := ⌊s⌋₊
  let r := s - (f : ℚ)
  if 1 / 2 < r then f + 1
  else if r = 1 / 2 ∧ f % 2 = 1 then f + 1
  else f

/-- The six digits of `m` below `10^6`, most significant first. -/
def fracDigits6 (m : Nat) : List Char :=
  [Nat.digitChar (m / 100000 % 10), Nat.digitChar (m / 10000 % 10),
   Nat.digitChar (m / 1000 % 10), Nat.digitChar (m / 100 % 10),
   Nat.digitChar (m / 10 % 10), Nat.digitChar (m % 10)]

/-- Output of `f << fixed << setprecision(6) << x` for a finite `x` (the same text as
`printf("%.6f", x)`): a minus sign when `x` is negative, the integer part in decimal, a
point, and exactly six decimals, the value being rounded to the nearest multiple of
`10^-6`, ties to even. -/
def fixed6 (x : ℚ) : List Char :=
  let n := roundHalfEven (|x| * 1000000)
  (if x < 0 then ['-'] else []) ++ Nat.toDigits 10 (n / 1000000) ++ '.' :: fracDigits6 (n % 1000000)

/-- Lines 88-92: the text streamed into the live pose file. -/
def livePoseLine (tframe : ℚ) (t : Vector3) (q : Quaternion) : List Char :=
  fixed6 tframe ++ " ".toList
    ++ fixed6 t.x ++ " ".toList ++ fixed6 t.y ++ " ".toList ++ fixed6 t.z ++ " ".toList
    ++ fixed6 q.x ++ " ".toList ++ fixed6 q.y ++ " ".toList ++ fixed6 q.z ++ " ".toList
    ++ fixed6 q.w
    ++ "\n".toList

/-- Lines 83-92: the content of `/tmp/LivePose.txt` after the block guarded by the state test
has run for the transform `Tcw` returned by `TrackMonocular` (the file is opened with
`std::ios::trunc`, so the previous content is discarded). -/
def writeLivePose {SE3 Mat : Type} (ops : PoseOps SE3 Mat) (tframe : ℚ) (Tcw : SE3) :
    List Char :=
  let Twc := ops.inverse Tcw
  let t := ops.translation Twc
  let q := ops.quaternionOfMatrix (ops.rotationMatrix Twc)
  livePoseLine tframe t q

/-- The shape of a number printed in fixed notation with six decimals: an optional minus
sign, at least one digit, a point, exactly six digits. -/
def IsFixed6 (s : List Char) : Prop :=
  ∃ sign ip fp : List Char, s = sign ++ ip ++ '.' :: fp ∧ (sign = [] ∨ sign = ['-']) ∧
    ip ≠ [] ∧ (∀ c ∈ ip, c.isDigit = true) ∧ fp.length = 6 ∧ (∀ c ∈ fp, c.isDigit = true)

/-- Fixed notation with six decimals, stated on the text: `s` prints `x` when it is the
sign of `x`, the integer part in decimal, a point and six digits, and the number `n` of
millionths so written is nearest to `|x| * 10^6`, the even one of the two when `x` lies
half-way.  The digits are valued by `Nat.ofDigits`. -/
def PrintsFixed6 (x : ℚ) (s : List Char) : Prop :=
  ∃ (n : Nat) (fp : List Char),
    |(n : ℚ) - |x| * 1000000| ≤ 1 / 2 ∧
    (|(n : ℚ) - |x| * 1000000| = 1 / 2 → n % 2 = 0) ∧
    fp.length = 6 ∧ (∀ c ∈ fp, c.isDigit = true) ∧
    Nat.ofDigits 10 (fp.reverse.map (fun c => c.toNat - 48)) = n % 1000000 ∧
    s = (if x < 0 then ['-'] else []) ++ Nat.toDigits 10 (n / 1000000) ++ '.' :: fp

/-! ### An exact instance of the pose operations

Rigid transforms with rational entries, with the formulas of Sophus (`SE3::inverse`) and of
Eigen (quaternion from a rotation matrix).  The square root is `Rat.sqrt`, which is exact on
squares of rationals; for a rotation matrix whose unit quaternion is rational every square
root taken below is of that kind. -/

/-- The coefficients of a 3x3 matrix, `mij` in row `i` and column `j`. -/
structure Matrix3 where
  m00 : ℚ
  m01 : ℚ
  m02 : ℚ
  m10 : ℚ
  m11 : ℚ
  m12 : ℚ
  m20 : ℚ
  m21 : ℚ
  m22 : ℚ
  deriving DecidableEq

/-- A rigid transform: rotation matrix and translation. -/
structure Rigid where
  rotation : Matrix3
  translation : Vector3
  deriving DecidableEq

/-- The transposed matrix. -/
def Matrix3.transpose (m : Matrix3) : Matrix3 :=
  { m00 := m.m00, m01 := m.m10, m02 := m.m20
    m10 := m.m01, m11 := m.m11, m12 := m.m21
    m20 := m.m02, m21 := m.m12, m22 := m.m22 }

/-- Matrix times vector. -/
def Matrix3.mulVec (m : Matrix3) (v : Vector3) : Vector3 :=
  { x := m.m00 * v.x + m.m01 * v.y + m.m02 * v.z
    y := m.m10 * v.x + m.m11 * v.y + m.m12 * v.z
    z := m.m20 * v.x + m.m21 * v.y + m.m22 * v.z }

/-- Inverse of a rigid transform: rotation `Rᵀ`, translation `Rᵀ (-t)`. -/
def Rigid.inverse (T : Rigid) : Rigid :=
  { rotation := T.rotation.transpose
    translation := T.rotation.transpose.mulVec
      { x := -T.translation.x, y := -T.translation.y, z := -T.translation.z } }

/-- Quaternion of a rotation matrix by the method Eigen uses (Shoemake): from the trace when
it is positive, otherwise from the largest diagonal coefficient. -/
def Matrix3.toQuaternion (m : Matrix3) : Quaternion :=
  let t := m.m00 + m.m11 + m.m22
  if 0 < t then
    let r := Rat.sqrt (t + 1)
    let u := (1 / 2) / r
    { x := (m.m21 - m.m12) * u, y := (m.m02 - m.m20) * u, z := (m.m10 - m.m01) * u
      w := (1 / 2) * r }
  else if m.m11 ≤ m.m00 ∧ m.m22 ≤ m.m00 then
    let r := Rat.sqrt (m.m00 - m.m11 - m.m22 + 1)
    let u := (1 / 2) / r
    { x := (1 / 2) * r, y := (m.m10 + m.m01) * u, z := (m.m20 + m.m02) * u
      w := (m.m21 - m.m12) * u }
  else if m.m00 < m.m11 ∧ m.m22 ≤ m.m11 then
    let r := Rat.sqrt (m.m11 - m.m22 - m.m00 + 1)
    let u := (1 / 2) / r
    { x := (m.m01 + m.m10) * u, y := (1 / 2) * r, z := (m.m21 + m.m12) * u
      w := (m.m02 - m.m20) * u }
  else
    let r := Rat.sqrt (m.m22 - m.m00 - m.m11 + 1)
    let u := (1 / 2) / r
    { x := (m.m02 + m.m20) * u, y := (m.m12 + m.m21) * u, z := (1 / 2) * r
      w := (m.m10 - m.m01) * u }

/-- The pose operations on exact rigid transforms. -/
def exactOps : PoseOps Rigid Matrix3 :=
  { inverse := Rigid.inverse
    translation := Rigid.translation
    rotationMatrix := Rigid.rotation
    quaternionOfMatrix := Matrix3.toQuaternion }

/-- The identity matrix. -/
def Matrix3.one : Matrix3 :=
  { m00 := 1, m01 := 0, m02 := 0, m10 := 0, m11 := 1, m12 := 0, m20 := 0, m21 := 0, m22 := 1 }

/-! ## Manifest loader (`mono_tum.cc`, `LoadImages`) -/

/-- An input stream (`std::ifstream`, `std::stringstream`) as the loader observes it: the
characters not read yet and two of the state bits. -/
structure IStream where
  buf : List Char
  eofbit : Bool
  failbit : Bool
  deriving DecidableEq

/-- `f.open(...)` on a fresh stream: `content` is the text of the file, or `none` when the
file cannot be opened, in which case `failbit` is set. -/
def IStream.ofFile (content : Option (List Char)) : IStream :=
  match content with
  | some cs => { buf := cs, eofbit := false, failbit := false }
  | none => { buf := [], eofbit := false, failbit := true }

/-- `getline(f,s)`: the stream afterwards and the new content of `s`.  On a stream that is
not good nothing is read, `failbit` is set and `s` is left as it was.  Otherwise characters
are taken up to the next newline, which is consumed and not stored; reaching the end of the
input sets `eofbit`, and `failbit` too when nothing at all was taken. -/
def getline (f : IStream) (s : List Char) : IStream × List Char :=
  if f.eofbit || f.failbit then ({ f with failbit := true }, s)
  else
    match f.buf.dropWhile (fun c => c != '\n') with
    | _ :: rest => ({ f with buf := rest }, f.buf.takeWhile (fun c => c != '\n'))
    | [] => ({ buf := [], eofbit := true, failbit := f.buf.isEmpty }, f.buf)

/-- `std::isspace` in the classic locale. -/
def isSpace (c : Char) : Bool :=
  c = ' ' || c = '\t' || c = '\n' || c = '\x0b' || c = '\x0c' || c = '\r'

/-- The characters `operator>>(double&)` takes from the input after the optional sign
(GNU libstdc++, classic locale): digits, one decimal point before any exponent, and one
exponent mark `e` or `E` after at least one digit, with an optional sign right behind it.
The flags are: a point was seen, an exponent mark was seen, a digit was seen.  The result is
the text taken (the exponent mark stored as `e`) and the input left. -/
def scanBody : List Char → Bool → Bool → Bool → List Char × List Char
  | [], _, _, _ => ([], [])
  | c :: cs, dec, sci, mant =>
    if c.isDigit then
      ((c :: (scanBody cs dec sci true).1), (scanBody cs dec sci true).2)
    else if c = '.' ∧ dec = false ∧ sci = false then
      (('.' :: (scanBody cs true sci mant).1), (scanBody cs true sci mant).2)
    else if (c = 'e' ∨ c = 'E') ∧ sci = false ∧ mant = true then
      match cs with
      | [] => (['e'], [])
      | s :: cs' =>
        if s = '+' ∨ s = '-' then
          (('e' :: s :: (scanBody cs' dec true mant).1), (scanBody cs' dec true mant).2)
        else
          (('e' :: (scanBody (s :: cs') dec true mant).1), (scanBody (s :: cs') dec true mant).2)
    else ([], c :: cs)

/-- The text `operator>>(double&)` takes from the input, and the input left. -/
def scanFloat : List Char → List Char × List Char
  | [] => ([], [])
  | c :: cs =>
    if c = '+' ∨ c = '-' then ((c :: (scanBody cs false false false).1),
      (scanBody cs false false false).2)
    else scanBody (c :: cs) false false false

/-- The number written by a string of decimal digits. -/
def digitsValue (ds : List Char) : Nat :=
  ds.foldl (fun n c => 10 * n + (c.toNat - 48)) 0

/-- The exact value of an unsigned decimal floating literal: digits with an optional point
and fraction, then an optional exponent `e`, optional sign and digits; `none` when the
text as a whole is not of this form (no digit in the mantissa, an exponent mark without
exponent digits, or anything left over). -/
def strtodUnsigned (body : List Char) : Option ℚ :=
  let ip := body.takeWhile Char.isDigit
  let r1 := body.dropWhile Char.isDigit
  let fp := if r1.head? = some '.' then r1.tail.takeWhile Char.isDigit else []
  let r2 := if r1.head? = some '.' then r1.tail.dropWhile Char.isDigit else r1
  if ip = [] ∧ fp = [] then none
  else
    let mant : ℚ := (digitsValue ip : ℚ) + (digitsValue fp : ℚ) / (10 : ℚ) ^ fp.length
    match r2 with
    | [] => some mant
    | 'e' :: r3 =>
      let ed := if r3.head? = some '-' ∨ r3.head? = some '+' then r3.tail else r3
      if ed ≠ [] ∧ ed.all Char.isDigit = true then
        some (if r3.head? = some '-' then mant / (10 : ℚ) ^ digitsValue ed
              else mant * (10 : ℚ) ^ digitsValue ed)
      else none
    | _ => none

/-- The exact value of the text taken by `scanFloat` read as a decimal floating literal
with an optional sign (the value `strtod` rounds); `none` when the text as a whole is not
such a literal. -/
def strtodExact (xtrc : List Char) : Option ℚ :=
  if xtrc.head? = some '-' then (strtodUnsigned xtrc.tail).map (fun v => -v)
  else if xtrc.head? = some '+' then strtodUnsigned xtrc.tail
  else strtodUnsigned xtrc

/-- The largest finite `double`, `(2^53 - 1) * 2^971`. -/
def DBL_MAX : ℚ := (2 ^ 53 - 1) * 2 ^ 971

/-- The least magnitude that rounds to infinity in `double` (to nearest, ties to even):
`2^1024 - 2^970`, half a unit in the last place above `DBL_MAX`. -/
def overflowBound : ℚ := (2 ^ 54 - 1) * 2 ^ 970

/-- The conversion made by `operator>>(double&)` on the text taken (GNU libstdc++): the
value stored and whether `failbit` is set.  Text that is not a number stores `0` and
fails; a number that `strtod` rounds to infinity stores `DBL_MAX` with its sign and fails;
any other number is stored (its rounding to `double` is outside the model). -/
def convertToV (xtrc : List Char) : ℚ × Bool :=
  match strtodExact xtrc with
  | none => (0, true)
  | some v =>
    if overflowBound ≤ v then (DBL_MAX, true)
    else if v ≤ -overflowBound then (-DBL_MAX, true)
    else (v, false)

/-- Lines 143-150 for a non-empty line `s`: `ss << s; ss >> t; ss >> sRGB;`, giving the
values pushed to `vTimestamps` and `vstrImageFilenames`.

* When `s` holds white space only, the first extraction fails before anything is stored:
  `t` keeps the indeterminate value of an uninitialised `double` (`none`), and `sRGB` stays
  empty.
* When the first extraction fails (the text taken is not a number, or the number is out of
  the range of `double`), `t` is the value stored by the failed conversion and, the stream
  having failed, the second extraction does nothing: `sRGB` stays empty.
* Otherwise `t` is the number read and `sRGB` is the next run of characters without white
  space (empty when none is left). -/
def parseLine (s : List Char) : Option ℚ × List Char :=
  match s.dropWhile isSpace with
  | [] => (none, [])
  | c :: cs =>
    if (convertToV (scanFloat (c :: cs)).1).2 = true then
      (some (convertToV (scanFloat (c :: cs)).1).1, [])
    else
      (some (convertToV (scanFloat (c :: cs)).1).1,
        ((scanFloat (c :: cs)).2.dropWhile isSpace).takeWhile (fun d => !isSpace d))

/-- The two vectors filled by `LoadImages`.  A timestamp is `none` when the value pushed
is indeterminate. -/
structure Manifest where
  vstrImageFilenames : List (List Char)
  vTimestamps : List (Option ℚ)
  deriving DecidableEq

/-- Lines 137-152: the loop `while(!f.eof())`, with fuel. -/
def loadLoop : Nat → IStream → Manifest → Option Manifest
  | 0, _, _ => none
  | fuel + 1, f, m =>
    if f.eofbit then some m
    else
      if (getline f []).2.isEmpty then loadLoop fuel (getline f []).1 m
      else
        loadLoop fuel (getline f []).1
          { vstrImageFilenames := m.vstrImageFilenames ++ [(parseLine (getline f []).2).2]
            vTimestamps := m.vTimestamps ++ [(parseLine (getline f []).2).1] }

/-- Lines 130-153: `LoadImages` on the index file with text `content` (`none`: the file
cannot be opened), called with two empty vectors.  `none` means that the fuel ran out. -/
def LoadImages (fuel : Nat) (content : Option (List Char)) : Option Manifest :=
  let f0 := IStream.ofFile content
  let g1 := getline f0 []
  let g2 := getline g1.1 g1.2
  let g3 := getline g2.1 g2.2
  loadLoop fuel g3.1 { vstrImageFilenames := [], vTimestamps := [] }

/-- The lines of a text: the pieces between newline characters.  A text that ends in a
newline has an empty last piece. -/
def splitLines : List Char → List (List Char)
  | [] => [[]]
  | c :: cs =>
    if c = '\n' then [] :: splitLines cs
    else
      match splitLines cs with
      | [] => [[c]]
      | l :: ls => (c :: l) :: ls

/-- The manifest the loader is to produce from the lines after the header: one record for
each line that is not empty, in order. -/
def manifestOfLines (ls : List (List Char)) : Manifest :=
  { vstrImageFilenames := (ls.filter (fun l => !l.isEmpty)).map (fun l => (parseLine l).2)
    vTimestamps := (ls.filter (fun l => !l.isEmpty)).map (fun l => (parseLine l).1) }

/-! ### Decimal literals

The numbers of the index format, described without reference to the extraction code: an
optional sign, digits with an optional point and fraction, and an optional exponent.  Their
values are given by `Nat.ofDigits`. -/

/-- A decimal floating literal. -/
structure DecimalLiteral where
  /-- No sign (`none`), `+` (`some false`) or `-` (`some true`). -/
  sign : Option Bool
  /-- The digits before the point. -/
  intDigits : List (Fin 10)
  /-- The digits after the point; `none` when there is no point. -/
  fracDigits : Option (List (Fin 10))
  /-- The sign and the digits of the exponent; `none` when there is no exponent. -/
  exponent : Option (Option Bool × List (Fin 10))
  /-- Whether the exponent mark is written `E` rather than `e`. -/
  upperMark : Bool

/-- The characters of a string of digits. -/
def digitChars (ds : List (Fin 10)) : List Char :=
  ds.map (fun d => Nat.digitChar d.val)

/-- The natural number written by a string of digits, most significant first. -/
def digitsNat (ds : List (Fin 10)) : Nat :=
  Nat.ofDigits 10 (ds.reverse.map (fun d => d.val))

/-- The characters of a sign. -/
def signChars : Option Bool → List Char
  | none => []
  | some false => ['+']
  | some true => ['-']

/-- The point and the fraction of a literal. -/
def DecimalLiteral.fracPart (l : DecimalLiteral) : List Char :=
  match l.fracDigits with
  | none => []
  | some fp => '.' :: digitChars fp

/-- The exponent of a literal, written with the mark `mark`. -/
def DecimalLiteral.expPart (l : DecimalLiteral) (mark : Char) : List Char :=
  match l.exponent with
  | none => []
  | some e => mark :: (signChars e.1 ++ digitChars e.2)

/-- The text of a literal. -/
def DecimalLiteral.text (l : DecimalLiteral) : List Char :=
  signChars l.sign ++ (digitChars l.intDigits ++
    (l.fracPart ++ l.expPart (if l.upperMark then 'E' else 'e')))

/-- A literal has a digit in its mantissa and, when it has an exponent, a digit in it. -/
def DecimalLiteral.wellFormed (l : DecimalLiteral) : Bool :=
  (!l.intDigits.isEmpty || !(l.fracDigits.getD []).isEmpty) &&
    (match l.exponent with
      | none => true
      | some e => !e.2.isEmpty)

/-- The mantissa of a literal. -/
def DecimalLiteral.mantissa (l : DecimalLiteral) : ℚ :=
  (digitsNat l.intDigits : ℚ)
    + (digitsNat (l.fracDigits.getD []) : ℚ) / (10 : ℚ) ^ (l.fracDigits.getD []).length

/-- The number a literal denotes. -/
def DecimalLiteral.value (l : DecimalLiteral) : ℚ :=
  (if l.sign = some true then -1 else 1) * l.mantissa *
    (match l.exponent with
      | none => 1
      | some e =>
        if e.1 = some true then 1 / (10 : ℚ) ^ digitsNat e.2 else (10 : ℚ) ^ digitsNat e.2)

/-! ## Sequence playback (`mono_tum.cc`, `main`) -/

/-- What the environment answers during the iteration for frame `ni`. -/
structure SeqEnv (SE3 : Type) where
  /-- `im.empty()` after `cv::imread`. -/
  imEmpty : Nat → Bool
  /-- The transform returned by `SLAM.TrackMonocular(im,tframe)`. -/
  Tcw : Nat → SE3
  /-- `SLAM.GetTrackingState()` after that call. -/
  state : Nat → eTrackingState
  /-- The measured duration `t2 - t1` in seconds. -/
  ttrack : Nat → ℚ

/-- Calls made by the sequence driver on the engine and on the operating system. -/
inductive Event
  /-- `SLAM.TrackMonocular(im,tframe)`: frame index, file name, timestamp, and whether the
  image went through `cv::resize` first. -/
  | TrackMonocular (ni : Nat) (file : List Char) (tframe : ℚ) (resized : Bool)
  /-- The pacer's action at the end of the iteration (no event for `Pace.proceed`). -/
  | Usleep (usec : Nat)
  | UsleepUndefined
  | Shutdown
  | SaveKeyFrameTrajectoryTUM (path : List Char)
  deriving DecidableEq

/-- The variables of `main` that change while the loop runs, the live pose file
(`none`: the file does not exist) and the trace of calls so far. -/
structure LoopState where
  livePose : Option (List Char)
  vTimesTrack : List ℚ
  trace : List Event

/-- The event appended for a pacer action. -/
def Pace.events : Pace → List Event
  | Pace.proceed => []
  | Pace.sleep usec => [Event.Usleep usec]
  | Pace.undefinedConversion => [Event.UsleepUndefined]

/-- Lines 54-112: the body of the loop for frame `ni`.  `Except.error` is the `return 1` of
line 61, carrying the state reached. -/
def frameBody {SE3 Mat : Type} (ops : PoseOps SE3 Mat) (env : SeqEnv SE3)
    (vstrImageFilenames : List (List Char)) (vTimestamps : List ℚ) (rescale : Bool)
    (ni : Nat) (st : LoopState) : Except LoopState LoopState :=
  let nImages : Int := vstrImageFilenames.length
  let tframe := vTimestamps.getD ni 0
  if env.imEmpty ni then Except.error st
  else
    let tracked := Event.TrackMonocular ni (vstrImageFilenames.getD ni []) tframe rescale
    let livePose :=
      if env.state ni = eTrackingState.OK then some (writeLivePose ops tframe (env.Tcw ni))
      else st.livePose
    let ttrack := env.ttrack ni
    let T := frameGap vTimestamps nImages ni
    Except.ok
      { livePose := livePose
        vTimesTrack := st.vTimesTrack.set ni ttrack
        trace := st.trace ++ tracked :: (framePacer T ttrack).events }

/-- The loop of lines 52-113 run for its first `n` iterations (frames `0 .. n-1`), from
state `st`. -/
def playback {SE3 Mat : Type} (ops : PoseOps SE3 Mat) (env : SeqEnv SE3)
    (vstrImageFilenames : List (List Char)) (vTimestamps : List ℚ) (rescale : Bool)
    (st : LoopState) : Nat → Except LoopState LoopState
  | 0 => Except.ok st
  | n + 1 =>
    match playback ops env vstrImageFilenames vTimestamps rescale st n with
    | Except.error e => Except.error e
    | Except.ok s => frameBody ops env vstrImageFilenames vTimestamps rescale n s

/-- What a run of the sequence driver leaves behind. -/
structure RunResult where
  exitCode : Int
  trace : List Event
  livePose : Option (List Char)
  /-- `vTimesTrack` when `main` returns: as filled by the loop, then sorted by line 117. -/
  vTimesTrack : List ℚ
  /-- `vTimesTrack[nImages/2]` of line 123; `none` when the index is out of bounds. -/
  median : Option ℚ
  /-- `totaltime/nImages` of line 124; `none` when the divisor is zero. -/
  mean : Option ℚ

/-- Lines 36-127: `main` from the manifest returned by `LoadImages` on. -/
def mainAfterLoad {SE3 Mat : Type} (ops : PoseOps SE3 Mat) (env : SeqEnv SE3)
    (initialLivePose : Option (List Char)) (imageScale : ℚ)
    (vstrImageFilenames : List (List Char)) (vTimestamps : List ℚ) : RunResult :=
  let nImages := vstrImageFilenames.length
  let st0 : LoopState :=
    { livePose := initialLivePose, vTimesTrack := List.replicate nImages 0, trace := [] }
  match playback ops env vstrImageFilenames vTimestamps (decide (imageScale ≠ 1)) st0 nImages with
  | Except.error st =>
    { exitCode := 1, trace := st.trace, livePose := st.livePose,
      vTimesTrack := st.vTimesTrack, median := none, mean := none }
  | Except.ok st =>
    let sorted := st.vTimesTrack.insertionSort (· ≤ ·)
    let totaltime := (sorted.take nImages).sum
    { exitCode := 0
      trace := st.trace ++
        [Event.Shutdown, Event.SaveKeyFrameTrajectoryTUM "KeyFrameTrajectory.txt".toList]
      livePose := st.livePose
      vTimesTrack := sorted
      median := sorted.get? (nImages / 2)
      mean := if nImages = 0 then none else some (totaltime / nImages) }

/-- The frame handed to the engine by an event, if the event is a tracking call. -/
def Event.tracked : Event → Option (Nat × List Char × ℚ)
  | Event.TrackMonocular ni file tframe _ => some (ni, file, tframe)
  | _ => none

/-- Whether an event is the engine shutdown or the trajectory export. -/
def Event.isFinal : Event → Bool
  | Event.Shutdown => true
  | Event.SaveKeyFrameTrajectoryTUM _ => true
  | _ => false

/-- Lines 22-35 followed by the rest of `main`: the usage check, the call of `LoadImages` on
`<sequence>/rgb.txt` and the playback.  `uninit i` is the value found in the uninitialised
`t` when record `i` was pushed without a number having been stored.  `none` means that
the fuel ran out inside `LoadImages`. -/
def main {SE3 Mat : Type} (fuel : Nat) (argc : Nat) (content : Option (List Char))
    (uninit : Nat → ℚ) (ops : PoseOps SE3 Mat) (env : SeqEnv SE3)
    (initialLivePose : Option (List Char)) (imageScale : ℚ) : Option RunResult :=
  if argc ≠ 4 then
    some { exitCode := 1, trace := [], livePose := initialLivePose, vTimesTrack := [],
           median := none, mean := none }
  else
    match LoadImages fuel content with
    | none => none
    | some m =>
      some (mainAfterLoad ops env initialLivePose imageScale m.vstrImageFilenames
        (m.vTimestamps.enum.map (fun p => p.2.getD (uninit p.1))))

/-- An environment for examples: every image loads, the engine returns the transform with
identity rotation and translation `(-1,-2,-3)`, tracking is lost on frame 1 only, and
every call takes 0.03 s. -/
def sampleEnv : SeqEnv Rigid :=
  { imEmpty := fun _ => false
    Tcw := fun _ => { rotation := Matrix3.one, translation := { x := -1, y := -2, z := -3 } }
    state := fun i => if i = 1 then eTrackingState.LOST else eTrackingState.OK
    ttrack := fun _ => 3 / 100 }

/-- The environment of `sampleEnv`, except that the image of frame 1 cannot be decoded. -/
def sampleEnvBadImage : SeqEnv Rigid :=
  { sampleEnv with imEmpty := fun i => decide (i = 1) }

end MonoTum

/-! ## Live capture (`mono_webcam.cc`, `main`) -/

namespace MonoWebcam

/-- What the capture device, the clock and the keyboard answer. -/
structure LiveEnv where
  /-- `cap.isOpened()` on line 28. -/
  isOpened : Bool
  /-- `frame.empty()` in iteration `i`, after `cap >> frame`. -/
  frameEmpty : Nat → Bool
  /-- The system clock read in iteration `i`, in seconds. -/
  now : Nat → ℚ
  /-- The value of `cv::waitKey(1)` in iteration `i`. -/
  waitKey : Nat → Int

/-- Calls made by the live driver. -/
inductive Event
  | TrackMonocular (i : Nat) (timestamp : ℚ)
  | Imshow (i : Nat)
  | Shutdown
  | SaveTrajectoryTUM (path : List Char)
  | Release
  | DestroyAllWindows
  deriving DecidableEq

/-- The conversion `(char)` of an `int`: the value modulo 256 in the range of a signed
byte. -/
def toChar (k : Int) : Int := (k + 128) % 256 - 128

/-- Lines 42-69: the loop `while(true)` from iteration `i` on, with fuel; the result is
the trace when the loop is left. -/
def liveLoop (env : LiveEnv) : Nat → Nat → List Event → Option (List Event)
  | 0, _, _ => none
  | fuel + 1, i, tr =>
    if env.frameEmpty i then some tr
    else
      if toChar (env.waitKey i) = 27 then
        some (tr ++ [Event.TrackMonocular i (env.now i), Event.Imshow i])
      else
        liveLoop env fuel (i + 1) (tr ++ [Event.TrackMonocular i (env.now i), Event.Imshow i])

/-- Lines 12-82: `main`; the result is the exit status and the trace, `none` when the
fuel ran out. -/
def main (fuel : Nat) (argc : Nat) (env : LiveEnv) : Option (Int × List Event) :=
  if argc ≠ 3 then some (1, [])
  else if env.isOpened = false then some (-1, [])
  else
    match liveLoop env fuel 0 [] with
    | none => none
    | some tr =>
      some (0, tr ++ [Event.Shutdown,
        Event.SaveTrajectoryTUM "CameraTrajectory_Webcam.txt".toList,
        Event.Release, Event.DestroyAllWindows])

/-- The iteration index of a tracking call. -/
def Event.tracked : Event → Option Nat
  | Event.TrackMonocular i _ => some i
  | _ => none

end MonoWebcam

/-! # Theorems -/

namespace MonoTum

theorem toUseconds_of_range {x : ℚ} (h0 : 0 < x) (h1 : x < 4294967296) :
    toUseconds x = some ⌊x⌋₊ := by
  unfold toUseconds
  rw [if_pos ⟨by linarith, h1⟩]

theorem framePacer_sleep {T ttrack : ℚ} (h : ttrack < T)
    (hr : (T - ttrack) * 1000000 < 4294967296) :
    framePacer T ttrack = Pace.sleep ⌊(T - ttrack) * 1000000⌋₊ := by
  have hpos : 0 < (T - ttrack) * 1000000 := by nlinarith
  unfold framePacer
  rw [if_pos h, toUseconds_of_range hpos hr]

theorem framePacer_proceed {T ttrack : ℚ} (h : T ≤ ttrack) :
    framePacer T ttrack = Pace.proceed := by
  unfold framePacer
  rw [if_neg (not_lt.mpr h)]

theorem waitSeconds_nonneg (p : Pace) (w : ℚ) (h : p.waitSeconds = some w) : 0 ≤ w := by
  cases p with
  | proceed => simp [Pace.waitSeconds] at h; simp [← h]
  | sleep u =>
    simp [Pace.waitSeconds] at h
    rw [← h]; positivity
  | undefinedConversion => simp [Pace.waitSeconds] at h

end MonoTum

namespace MonoTum

section Playback

variable {SE3 Mat : Type} (ops : PoseOps SE3 Mat) (env : SeqEnv SE3)
  (files : List (List Char)) (ts : List ℚ) (rescale : Bool) (st0 : LoopState)

theorem playback_succ_ok {n : Nat} {s : LoopState}
    (h : playback ops env files ts rescale st0 n = Except.ok s) :
    playback ops env files ts rescale st0 (n + 1) = frameBody ops env files ts rescale n s := by
  simp only [playback, h]

theorem playback_succ_error {n : Nat} {e : LoopState}
    (h : playback ops env files ts rescale st0 n = Except.error e) :
    playback ops env files ts rescale st0 (n + 1) = Except.error e := by
  simp only [playback, h]

theorem frameBody_ok {ni : Nat} (s : LoopState) (h : env.imEmpty ni = false) :
    frameBody ops env files ts rescale ni s = Except.ok
      { livePose := if env.state ni = eTrackingState.OK
          then some (writeLivePose ops (ts.getD ni 0) (env.Tcw ni)) else s.livePose
        vTimesTrack := s.vTimesTrack.set ni (env.ttrack ni)
        trace := s.trace ++ Event.TrackMonocular ni (files.getD ni []) (ts.getD ni 0) rescale ::
          (framePacer (frameGap ts (files.length : Int) ni) (env.ttrack ni)).events } := by
  simp [frameBody, h]

theorem frameBody_error {ni : Nat} (s : LoopState) (h : env.imEmpty ni = true) :
    frameBody ops env files ts rescale ni s = Except.error s := by
  simp [frameBody, h]

/-- While no image of the prefix is empty the loop keeps running. -/
theorem playback_ok (n : Nat) (h : ∀ i, i < n → env.imEmpty i = false) :
    ∃ s, playback ops env files ts rescale st0 n = Except.ok s := by
  induction n with
  | zero => exact ⟨st0, rfl⟩
  | succ n ih =>
    obtain ⟨s, hs⟩ := ih (fun i hi => h i (Nat.lt_succ_of_lt hi))
    rw [playback_succ_ok ops env files ts rescale st0 hs,
      frameBody_ok ops env files ts rescale s (h n (Nat.lt_succ_self n))]
    exact ⟨_, rfl⟩

/-- A run that reaches iteration `n` has loaded every earlier image. -/
theorem playback_ok_imp (n : Nat) (s : LoopState)
    (h : playback ops env files ts rescale st0 n = Except.ok s) :
    ∀ i, i < n → env.imEmpty i = false := by
  induction n generalizing s with
  | zero => intro i hi; omega
  | succ n ih =>
    cases hp : playback ops env files ts rescale st0 n with
    | error e => rw [playback_succ_error ops env files ts rescale st0 hp] at h; cases h
    | ok s' =>
      rw [playback_succ_ok ops env files ts rescale st0 hp] at h
      intro i hi
      rcases Nat.lt_succ_iff_lt_or_eq.mp hi with hlt | heq
      · exact ih s' hp i hlt
      · subst heq
        cases hE : env.imEmpty i with
        | false => rfl
        | true => rw [frameBody_error ops env files ts rescale s' hE] at h; cases h

theorem playback_error_of_le {k : Nat} {e : LoopState}
    (h : playback ops env files ts rescale st0 k = Except.error e) (n : Nat) (hn : k ≤ n) :
    playback ops env files ts rescale st0 n = Except.error e := by
  induction n with
  | zero => have : k = 0 := by omega
            subst this; exact h
  | succ n ih =>
    rcases Nat.lt_or_ge n k with hlt | hge
    · have : k = n + 1 := by omega
      subst this; exact h
    · exact playback_succ_error ops env files ts rescale st0 (ih hge)

/-- The tracking calls of the first `n` iterations. -/
theorem playback_tracked (n : Nat) (s : LoopState)
    (h : playback ops env files ts rescale st0 n = Except.ok s) :
    s.trace.filterMap Event.tracked = st0.trace.filterMap Event.tracked ++
      (List.range n).map (fun i => (i, files.getD i [], ts.getD i 0)) := by
  induction n generalizing s with
  | zero => simp [playback] at h; subst h; simp
  | succ n ih =>
    cases hp : playback ops env files ts rescale st0 n with
    | error e => rw [playback_succ_error ops env files ts rescale st0 hp] at h; cases h
    | ok s' =>
      have hE := playback_ok_imp ops env files ts rescale st0 (n + 1) s h n (Nat.lt_succ_self n)
      rw [playback_succ_ok ops env files ts rescale st0 hp,
        frameBody_ok ops env files ts rescale s' hE] at h
      injection h with h
      subst h
      have hp' : ∀ p : Pace, p.events.filterMap Event.tracked = [] := by
        intro p; cases p <;> rfl
      simp [List.filterMap_append, List.filterMap_cons, Event.tracked, ih s' hp, hp',
        List.range_succ]

theorem playback_no_final (n : Nat) (s : LoopState)
    (h : playback ops env files ts rescale st0 n = Except.ok s) :
    s.trace.filter Event.isFinal = st0.trace.filter Event.isFinal := by
  induction n generalizing s with
  | zero => simp [playback] at h; subst h; rfl
  | succ n ih =>
    cases hp : playback ops env files ts rescale st0 n with
    | error e => rw [playback_succ_error ops env files ts rescale st0 hp] at h; cases h
    | ok s' =>
      have hE := playback_ok_imp ops env files ts rescale st0 (n + 1) s h n (Nat.lt_succ_self n)
      rw [playback_succ_ok ops env files ts rescale st0 hp,
        frameBody_ok ops env files ts rescale s' hE] at h
      injection h with h
      subst h
      have hp' : ∀ p : Pace, p.events.filter Event.isFinal = [] := by
        intro p; cases p <;> rfl
      simp [List.filter_append, List.filter_cons, Event.isFinal, ih s' hp, hp']

end Playback

end MonoTum

namespace MonoTum

section Playback2

variable {SE3 Mat : Type} (ops : PoseOps SE3 Mat) (env : SeqEnv SE3)
  (files : List (List Char)) (ts : List ℚ) (rescale : Bool) (st0 : LoopState)

/-- The timing vector after `n` iterations: entry `i` holds the duration of frame `i` for
`i < n`, and the vector keeps its length. -/
theorem playback_vTimesTrack (n : Nat) (s : LoopState)
    (h : playback ops env files ts rescale st0 n = Except.ok s) :
    s.vTimesTrack.length = st0.vTimesTrack.length ∧
    ∀ i, i < st0.vTimesTrack.length →
      s.vTimesTrack[i]? = if i < n then some (env.ttrack i) else st0.vTimesTrack[i]? := by
  induction n generalizing s with
  | zero => simp [playback] at h; subst h; simp
  | succ n ih =>
    cases hp : playback ops env files ts rescale st0 n with
    | error e => rw [playback_succ_error ops env files ts rescale st0 hp] at h; cases h
    | ok s' =>
      have hE := playback_ok_imp ops env files ts rescale st0 (n + 1) s h n (Nat.lt_succ_self n)
      rw [playback_succ_ok ops env files ts rescale st0 hp,
        frameBody_ok ops env files ts rescale s' hE] at h
      injection h with h
      subst h
      obtain ⟨hl, hi⟩ := ih s' hp
      refine ⟨by simp [hl], ?_⟩
      intro i hilt
      simp only [List.getElem?_set]
      by_cases hin : n = i
      · subst hin
        simp [hl, hilt]
      · rw [if_neg hin, hi i hilt]
        by_cases h1 : i < n
        · simp [h1, Nat.lt_succ_of_lt h1]
        · have : ¬ i < n + 1 := by omega
          simp [h1, this]

theorem playback_samples (N : Nat) (s : LoopState)
    (hv : st0.vTimesTrack = List.replicate N 0)
    (h : playback ops env files ts rescale st0 N = Except.ok s) :
    s.vTimesTrack = (List.range N).map env.ttrack := by
  obtain ⟨hl, hi⟩ := playback_vTimesTrack ops env files ts rescale st0 N s h
  have hN : st0.vTimesTrack.length = N := by simp [hv]
  apply List.ext_getElem?
  intro i
  by_cases hilt : i < N
  · rw [hi i (by omega), if_pos hilt]
    simp [List.getElem?_map, List.getElem?_range hilt]
  · have h1 : s.vTimesTrack[i]? = none := by
      apply List.getElem?_eq_none; omega
    have h2 : ((List.range N).map env.ttrack)[i]? = none := by
      apply List.getElem?_eq_none; simp; omega
    rw [h1, h2]

/-- The live pose file after `n` iterations. -/
theorem playback_livePose (n : Nat) (s : LoopState)
    (h : playback ops env files ts rescale st0 n = Except.ok s) :
    (∀ i, i < n → env.state i = eTrackingState.OK →
      (∀ k, i < k → k < n → env.state k ≠ eTrackingState.OK) →
      s.livePose = some (writeLivePose ops (ts.getD i 0) (env.Tcw i))) ∧
    ((∀ i, i < n → env.state i ≠ eTrackingState.OK) → s.livePose = st0.livePose) := by
  induction n generalizing s with
  | zero =>
    simp [playback] at h; subst h
    exact ⟨fun i hi => absurd hi (Nat.not_lt_zero i), fun _ => rfl⟩
  | succ n ih =>
    cases hp : playback ops env files ts rescale st0 n with
    | error e => rw [playback_succ_error ops env files ts rescale st0 hp] at h; cases h
    | ok s' =>
      have hE := playback_ok_imp ops env files ts rescale st0 (n + 1) s h n (Nat.lt_succ_self n)
      rw [playback_succ_ok ops env files ts rescale st0 hp,
        frameBody_ok ops env files ts rescale s' hE] at h
      injection h with h
      subst h
      obtain ⟨ih1, ih2⟩ := ih s' hp
      constructor
      · intro i hi hok hlast
        rcases Nat.lt_succ_iff_lt_or_eq.mp hi with hlt | heq
        · have hn : env.state n ≠ eTrackingState.OK := hlast n hlt (Nat.lt_succ_self n)
          simp only [if_neg hn]
          exact ih1 i hlt hok (fun k hk1 hk2 => hlast k hk1 (Nat.lt_succ_of_lt hk2))
        · subst heq
          simp only [if_pos hok]
      · intro hnone
        have hn : env.state n ≠ eTrackingState.OK := hnone n (Nat.lt_succ_self n)
        simp only [if_neg hn]
        exact ih2 (fun i hi => hnone i (Nat.lt_succ_of_lt hi))

end Playback2

end MonoTum

namespace MonoTum

section Format

theorem digitChar_isDigit (d : Nat) (h : d < 10) : (Nat.digitChar d).isDigit = true := by
  interval_cases d <;> rfl

theorem toDigitsCore_isDigit (fuel n : Nat) (acc : List Char)
    (h : ∀ c ∈ acc, c.isDigit = true) :
    ∀ c ∈ Nat.toDigitsCore 10 fuel n acc, c.isDigit = true := by
  induction fuel generalizing n acc with
  | zero => simpa [Nat.toDigitsCore] using h
  | succ fuel ih =>
    have hd : (Nat.digitChar (n % 10)).isDigit = true :=
      digitChar_isDigit _ (Nat.mod_lt _ (by norm_num))
    have hacc : ∀ c ∈ Nat.digitChar (n % 10) :: acc, c.isDigit = true := by
      intro c hc
      rcases List.mem_cons.mp hc with rfl | hc
      · exact hd
      · exact h c hc
    simp only [Nat.toDigitsCore]
    split
    · exact hacc
    · exact ih _ _ hacc

theorem toDigitsCore_ne_nil (fuel n : Nat) (acc : List Char) (h : acc ≠ [] ∨ 0 < fuel) :
    Nat.toDigitsCore 10 fuel n acc ≠ [] := by
  induction fuel generalizing n acc with
  | zero =>
    rcases h with h | h
    · simpa [Nat.toDigitsCore] using h
    · omega
  | succ fuel ih =>
    simp only [Nat.toDigitsCore]
    split
    · simp
    · exact ih _ _ (Or.inl (by simp))

theorem toDigits_isDigit (n : Nat) : ∀ c ∈ Nat.toDigits 10 n, c.isDigit = true :=
  toDigitsCore_isDigit (n + 1) n [] (by simp)

theorem toDigits_ne_nil (n : Nat) : Nat.toDigits 10 n ≠ [] :=
  toDigitsCore_ne_nil (n + 1) n [] (Or.inr (Nat.succ_pos n))

theorem fracDigits6_length (m : Nat) : (fracDigits6 m).length = 6 := rfl

theorem fracDigits6_isDigit (m : Nat) : ∀ c ∈ fracDigits6 m, c.isDigit = true := by
  intro c hc
  simp only [fracDigits6, List.mem_cons, List.mem_singleton, List.not_mem_nil, or_false] at hc
  rcases hc with h | h | h | h | h | h <;> rw [h] <;>
    exact digitChar_isDigit _ (Nat.mod_lt _ (by norm_num))

/-- Every number is printed as sign, digits, point and six digits. -/
theorem fixed6_shape (x : ℚ) : IsFixed6 (fixed6 x) := by
  refine ⟨if x < 0 then ['-'] else [],
    Nat.toDigits 10 (roundHalfEven (|x| * 1000000) / 1000000),
    fracDigits6 (roundHalfEven (|x| * 1000000) % 1000000), rfl, ?_,
    toDigits_ne_nil _, toDigits_isDigit _, fracDigits6_length _, fracDigits6_isDigit _⟩
  by_cases h : x < 0
  · right; simp [h]
  · left; simp [h]

/-- The characters of a printed number. -/
theorem fixed6_chars (x : ℚ) : ∀ c ∈ fixed6 x, c = '-' ∨ c = '.' ∨ c.isDigit = true := by
  obtain ⟨sign, ip, fp, hs, hsign, _, hip, _, hfp⟩ := fixed6_shape x
  intro c hc
  rw [hs] at hc
  simp only [List.mem_append, List.mem_cons] at hc
  rcases hc with (hc | hc) | hc | hc
  · rcases hsign with h | h
    · rw [h] at hc; simp at hc
    · rw [h] at hc; simp at hc; exact Or.inl hc
  · exact Or.inr (Or.inr (hip c hc))
  · exact Or.inr (Or.inl hc)
  · exact Or.inr (Or.inr (hfp c hc))

theorem fixed6_no_blank (x : ℚ) : ' ' ∉ fixed6 x ∧ '\n' ∉ fixed6 x := by
  constructor
  · intro h
    rcases fixed6_chars x _ h with h | h | h <;> revert h <;> decide
  · intro h
    rcases fixed6_chars x _ h with h | h | h <;> revert h <;> decide

/-- The text written is one line: a body without newline, then one newline. -/
theorem livePoseLine_one_line (tframe : ℚ) (t : Vector3) (q : Quaternion) :
    ∃ body, livePoseLine tframe t q = body ++ ['\n'] ∧ '\n' ∉ body := by
  refine ⟨_, rfl, ?_⟩
  have h := fun x => (fixed6_no_blank x).2
  simp [h]

end Format

end MonoTum

namespace MonoTum

section Printing

theorem digitChar_toNat (d : Nat) (h : d < 10) : (Nat.digitChar d).toNat - 48 = d := by
  interval_cases d <;> rfl

theorem roundHalfEven_nearest (s : ℚ) (hs : 0 ≤ s) :
    |((roundHalfEven s : Nat) : ℚ) - s| ≤ 1 / 2 ∧
    (|((roundHalfEven s : Nat) : ℚ) - s| = 1 / 2 → roundHalfEven s % 2 = 0) := by
  have h1 : ((⌊s⌋₊ : Nat) : ℚ) ≤ s := Nat.floor_le hs
  have h2 : s < ((⌊s⌋₊ : Nat) : ℚ) + 1 := Nat.lt_floor_add_one s
  unfold roundHalfEven
  simp only
  by_cases c1 : 1 / 2 < s - ((⌊s⌋₊ : Nat) : ℚ)
  · rw [if_pos c1]
    have e : |(((⌊s⌋₊ + 1 : Nat)) : ℚ) - s| = ((⌊s⌋₊ : Nat) : ℚ) + 1 - s := by
      push_cast
      rw [abs_of_nonneg (by linarith)]
    rw [e]
    constructor
    · linarith
    · intro h; linarith
  · rw [if_neg c1]
    by_cases c2 : s - ((⌊s⌋₊ : Nat) : ℚ) = 1 / 2 ∧ ⌊s⌋₊ % 2 = 1
    · rw [if_pos c2]
      have e : |(((⌊s⌋₊ + 1 : Nat)) : ℚ) - s| = ((⌊s⌋₊ : Nat) : ℚ) + 1 - s := by
        push_cast
        rw [abs_of_nonneg (by linarith)]
      rw [e]
      constructor
      · linarith [c2.1]
      · intro _; omega
    · rw [if_neg c2]
      have e : |((⌊s⌋₊ : Nat) : ℚ) - s| = s - ((⌊s⌋₊ : Nat) : ℚ) := by
        rw [abs_sub_comm, abs_of_nonneg (by linarith)]
      rw [e]
      constructor
      · linarith
      · intro h
        have : ¬ (⌊s⌋₊ % 2 = 1) := fun h' => c2 ⟨h, h'⟩
        omega

theorem fracDigits6_value (m : Nat) (h : m < 1000000) :
    Nat.ofDigits 10 ((fracDigits6 m).reverse.map (fun c => c.toNat - 48)) = m := by
  have hd : ∀ k, (Nat.digitChar (k % 10)).toNat - 48 = k % 10 :=
    fun k => digitChar_toNat _ (Nat.mod_lt _ (by norm_num))
  simp only [fracDigits6, List.reverse_cons, List.reverse_nil, List.nil_append,
    List.cons_append, List.map_cons, List.map_nil, hd, Nat.ofDigits_cons, Nat.ofDigits_nil]
  omega


/-- The model of the stream output meets the specification of fixed notation. -/
theorem fixed6_prints (x : ℚ) : PrintsFixed6 x (fixed6 x) := by
  obtain ⟨h1, h2⟩ := roundHalfEven_nearest (|x| * 1000000) (by positivity)
  exact ⟨roundHalfEven (|x| * 1000000), fracDigits6 (roundHalfEven (|x| * 1000000) % 1000000),
    h1, h2, rfl, fracDigits6_isDigit _,
    fracDigits6_value _ (Nat.mod_lt _ (by norm_num)), rfl⟩

theorem ofDigits_inj (L1 L2 : List Nat) (hlen : L1.length = L2.length)
    (h1 : ∀ d ∈ L1, d < 10) (h2 : ∀ d ∈ L2, d < 10)
    (h : Nat.ofDigits 10 L1 = Nat.ofDigits 10 L2) : L1 = L2 := by
  induction L1 generalizing L2 with
  | nil =>
    cases L2 with
    | nil => rfl
    | cons b L2 => simp at hlen
  | cons a L1 ih =>
    cases L2 with
    | nil => simp at hlen
    | cons b L2 =>
      simp only [Nat.ofDigits_cons] at h
      have ha := h1 a (List.mem_cons_self _ _)
      have hb := h2 b (List.mem_cons_self _ _)
      have hab : a = b := by omega
      subst hab
      have hL : Nat.ofDigits 10 L1 = Nat.ofDigits 10 L2 := by omega
      rw [ih L2 (by simpa using hlen) (fun d hd => h1 d (List.mem_cons_of_mem _ hd))
        (fun d hd => h2 d (List.mem_cons_of_mem _ hd)) hL]

theorem digit_of_toNat (c : Char) (h : c.isDigit = true) :
    c.toNat - 48 < 10 ∧ Nat.digitChar (c.toNat - 48) = c := by
  have hc : Char.ofNat c.toNat = c := Char.ofNat_toNat c
  have hr : 48 ≤ c.toNat ∧ c.toNat ≤ 57 := by
    simp only [Char.isDigit, Bool.and_eq_true, decide_eq_true_eq] at h
    exact ⟨h.1, h.2⟩
  obtain ⟨hlo, hhi⟩ := hr
  generalize c.toNat = n at hc hlo hhi
  subst hc
  interval_cases n <;> exact ⟨by decide, rfl⟩

theorem digits_inj (l1 l2 : List Char) (h1 : ∀ c ∈ l1, c.isDigit = true)
    (h2 : ∀ c ∈ l2, c.isDigit = true)
    (h : l1.map (fun c => c.toNat - 48) = l2.map (fun c => c.toNat - 48)) : l1 = l2 := by
  have e1 : l1 = (l1.map (fun c => c.toNat - 48)).map Nat.digitChar := by
    rw [List.map_map]
    conv_lhs => rw [← List.map_id l1]
    exact List.map_congr_left (fun c hc => ((digit_of_toNat c (h1 c hc)).2).symm)
  have e2 : l2 = (l2.map (fun c => c.toNat - 48)).map Nat.digitChar := by
    rw [List.map_map]
    conv_lhs => rw [← List.map_id l2]
    exact List.map_congr_left (fun c hc => ((digit_of_toNat c (h2 c hc)).2).symm)
  rw [e1, e2, h]

/-- The specification leaves no choice: a number has one text in fixed notation with six
decimals. -/
theorem printsFixed6_unique (x : ℚ) (s t : List Char)
    (hs : PrintsFixed6 x s) (ht : PrintsFixed6 x t) : s = t := by
  obtain ⟨n, fp, a1, a2, a3, a4, a5, rfl⟩ := hs
  obtain ⟨m, fq, b1, b2, b3, b4, b5, rfl⟩ := ht
  have hnm : n = m := by
    rw [abs_le] at a1 b1
    have hle : ((n : ℚ) - m) ≤ 1 ∧ ((m : ℚ) - n) ≤ 1 := ⟨by linarith, by linarith⟩
    have h1 : n ≤ m + 1 := by
      have : (n : ℚ) ≤ ((m + 1 : Nat) : ℚ) := by push_cast; linarith
      exact_mod_cast this
    have h2 : m ≤ n + 1 := by
      have : (m : ℚ) ≤ ((n + 1 : Nat) : ℚ) := by push_cast; linarith
      exact_mod_cast this
    by_contra hne
    rcases Nat.lt_or_gt_of_ne hne with hlt | hgt
    · have hm : m = n + 1 := by omega
      have hq : (m : ℚ) = n + 1 := by rw [hm]; push_cast; rfl
      have e1 : |(n : ℚ) - |x| * 1000000| = 1 / 2 := by
        rw [abs_sub_comm, abs_of_nonneg (by linarith)]; linarith
      have e2 : |(m : ℚ) - |x| * 1000000| = 1 / 2 := by
        rw [abs_of_nonneg (by linarith)]; linarith
      have := a2 e1
      have := b2 e2
      omega
    · have hm : n = m + 1 := by omega
      have hq : (n : ℚ) = m + 1 := by rw [hm]; push_cast; rfl
      have e1 : |(m : ℚ) - |x| * 1000000| = 1 / 2 := by
        rw [abs_sub_comm, abs_of_nonneg (by linarith)]; linarith
      have e2 : |(n : ℚ) - |x| * 1000000| = 1 / 2 := by
        rw [abs_of_nonneg (by linarith)]; linarith
      have := a2 e2
      have := b2 e1
      omega
  subst hnm
  have hfp : fp = fq := by
    have hmap : fp.reverse.map (fun c => c.toNat - 48) = fq.reverse.map (fun c => c.toNat - 48) := by
      apply ofDigits_inj
      · simp [a3, b3]
      · intro d hd
        obtain ⟨c, hc, rfl⟩ := List.mem_map.mp hd
        exact (digit_of_toNat c (a4 c (List.mem_reverse.mp hc))).1
      · intro d hd
        obtain ⟨c, hc, rfl⟩ := List.mem_map.mp hd
        exact (digit_of_toNat c (b4 c (List.mem_reverse.mp hc))).1
      · rw [a5, b5]
    have := digits_inj fp.reverse fq.reverse
      (fun c hc => a4 c (List.mem_reverse.mp hc)) (fun c hc => b4 c (List.mem_reverse.mp hc)) hmap
    exact List.reverse_injective this
  rw [hfp]

end Printing

end MonoTum

namespace MonoTum

section Loader

/-- A stream in good state with `cs` left to read. -/
theorem getline_good_newline (cs rest : List Char) (s : List Char) (c : Char)
    (h : cs.dropWhile (fun c => c != '\n') = c :: rest) :
    getline { buf := cs, eofbit := false, failbit := false } s
      = ({ buf := rest, eofbit := false, failbit := false },
          cs.takeWhile (fun c => c != '\n')) := by
  simp [getline, h]

theorem getline_good_end (cs : List Char) (s : List Char)
    (h : cs.dropWhile (fun c => c != '\n') = []) :
    getline { buf := cs, eofbit := false, failbit := false } s
      = ({ buf := [], eofbit := true, failbit := cs.isEmpty }, cs) := by
  simp [getline, h]

theorem getline_eof (f : IStream) (s : List Char) (h : f.eofbit = true) :
    getline f s = ({ f with failbit := true }, s) := by
  simp [getline, h]

theorem getline_fail (f : IStream) (s : List Char) (h : f.failbit = true) :
    getline f s = ({ f with failbit := true }, s) := by
  simp [getline, h]

theorem splitLines_ne_nil (cs : List Char) : splitLines cs ≠ [] := by
  cases cs with
  | nil => simp [splitLines]
  | cons c cs =>
    simp only [splitLines]
    split
    · simp
    · split <;> simp

theorem splitLines_of_newline (cs rest : List Char) (c : Char)
    (h : cs.dropWhile (fun c => c != '\n') = c :: rest) :
    splitLines cs = cs.takeWhile (fun c => c != '\n') :: splitLines rest := by
  induction cs with
  | nil => simp at h
  | cons d cs ih =>
    by_cases hd : d = '\n'
    · subst hd
      simp at h
      simp [splitLines, h.2]
    · have h' : cs.dropWhile (fun c => c != '\n') = c :: rest := by
        simpa [List.dropWhile_cons, hd] using h
      have := ih h'
      simp [splitLines, hd, this, List.takeWhile_cons]

theorem splitLines_of_end (cs : List Char)
    (h : cs.dropWhile (fun c => c != '\n') = []) : splitLines cs = [cs] := by
  induction cs with
  | nil => rfl
  | cons d cs ih =>
    by_cases hd : d = '\n'
    · subst hd
      simp at h
    · have h' : cs.dropWhile (fun c => c != '\n') = [] := by
        simpa [List.dropWhile_cons, hd] using h
      simp [splitLines, hd, ih h']

theorem length_of_dropWhile (cs rest : List Char) (c : Char) (p : Char → Bool)
    (h : cs.dropWhile p = c :: rest) : rest.length < cs.length := by
  have h1 : (cs.dropWhile p).length ≤ cs.length := by
    have h2 := congrArg List.length (List.takeWhile_append_dropWhile p cs)
    simp only [List.length_append] at h2
    omega
  rw [h] at h1
  simp at h1
  omega

/-- Adding the records of further lines to a manifest. -/
theorem manifestOfLines_cons (l : List Char) (ls : List (List Char)) :
    manifestOfLines (l :: ls) =
      if l.isEmpty then manifestOfLines ls
      else { vstrImageFilenames := (parseLine l).2 :: (manifestOfLines ls).vstrImageFilenames
             vTimestamps := (parseLine l).1 :: (manifestOfLines ls).vTimestamps } := by
  by_cases h : l.isEmpty = true
  · simp [manifestOfLines, List.filter_cons, h]
  · simp [manifestOfLines, List.filter_cons, h]

theorem loadLoop_eof (fuel : Nat) (f : IStream) (m : Manifest) (h : f.eofbit = true) :
    loadLoop (fuel + 1) f m = some m := by
  simp [loadLoop, h]

/-- The loop on a stream in good state reads every remaining line. -/
theorem loadLoop_good (fuel : Nat) (cs : List Char) (m : Manifest)
    (hf : cs.length + 2 ≤ fuel) :
    loadLoop fuel { buf := cs, eofbit := false, failbit := false } m
      = some { vstrImageFilenames :=
                  m.vstrImageFilenames ++ (manifestOfLines (splitLines cs)).vstrImageFilenames
               vTimestamps :=
                  m.vTimestamps ++ (manifestOfLines (splitLines cs)).vTimestamps } := by
  induction fuel generalizing cs m with
  | zero => omega
  | succ fuel ih =>
    cases hd : cs.dropWhile (fun c => c != '\n') with
    | nil =>
      obtain ⟨fuel', rfl⟩ : ∃ k, fuel = k + 1 := ⟨fuel - 1, by omega⟩
      rw [splitLines_of_end cs hd]
      simp only [loadLoop, getline_good_end cs [] hd]
      by_cases he : cs.isEmpty = true
      · simp [he, manifestOfLines]
      · simp [he, manifestOfLines]
    | cons c rest =>
      have hlen := length_of_dropWhile cs rest c _ hd
      rw [splitLines_of_newline cs rest c hd, manifestOfLines_cons]
      simp only [loadLoop, getline_good_newline cs rest [] c hd]
      by_cases he : (cs.takeWhile (fun c => c != '\n')).isEmpty = true
      · simp only [he, if_true]
        rw [ih rest m (by omega)]
        simp
      · have he' : (cs.takeWhile (fun c => c != '\n')).isEmpty = false := by simpa using he
        simp only [he', Bool.false_eq_true, if_false]
        rw [ih rest _ (by omega)]
        simp

end Loader

end MonoTum

namespace MonoTum

section Loader2

theorem manifestOfLines_nil : manifestOfLines [] = { vstrImageFilenames := [], vTimestamps := [] } := rfl

/-- Once `eofbit` is set, further calls of `getline` leave it set, and the loop ends at
once with what it was given. -/
theorem loadLoop_after_eof (fuel : Nat) (f : IStream) (m : Manifest) (h : f.eofbit = true)
    (s : List Char) : loadLoop (fuel + 1) (getline f s).1 m = some m := by
  rw [getline_eof f s h]
  exact loadLoop_eof fuel _ m h

/-- On a file that can be opened, `LoadImages` returns the records of the lines after the
third. -/
theorem LoadImages_opened (fuel : Nat) (content : List Char)
    (hf : content.length + 2 ≤ fuel) :
    LoadImages fuel (some content) = some (manifestOfLines ((splitLines content).drop 3)) := by
  obtain ⟨k, rfl⟩ : ∃ k, fuel = k + 1 := ⟨fuel - 1, by omega⟩
  simp only [LoadImages, IStream.ofFile]
  cases h1 : content.dropWhile (fun c => c != '\n') with
  | nil =>
    rw [getline_good_end content [] h1, splitLines_of_end content h1]
    simp only [List.drop_succ_cons, List.drop_nil, manifestOfLines_nil]
    rw [getline_eof _ _ rfl]
    exact loadLoop_after_eof k _ _ rfl _
  | cons c1 r1 =>
    have hl1 := length_of_dropWhile content r1 c1 _ h1
    rw [getline_good_newline content r1 [] c1 h1, splitLines_of_newline content r1 c1 h1]
    simp only [List.drop_succ_cons]
    cases h2 : r1.dropWhile (fun c => c != '\n') with
    | nil =>
      rw [getline_good_end r1 _ h2, splitLines_of_end r1 h2]
      simp only [List.drop_succ_cons, List.drop_nil, manifestOfLines_nil]
      exact loadLoop_after_eof k _ _ rfl _
    | cons c2 r2 =>
      have hl2 := length_of_dropWhile r1 r2 c2 _ h2
      rw [getline_good_newline r1 r2 _ c2 h2, splitLines_of_newline r1 r2 c2 h2]
      simp only [List.drop_succ_cons]
      cases h3 : r2.dropWhile (fun c => c != '\n') with
      | nil =>
        rw [getline_good_end r2 _ h3, splitLines_of_end r2 h3]
        simp only [List.drop_succ_cons, List.drop_nil, manifestOfLines_nil]
        exact loadLoop_eof k _ _ rfl
      | cons c3 r3 =>
        have hl3 := length_of_dropWhile r2 r3 c3 _ h3
        rw [getline_good_newline r2 r3 _ c3 h3, splitLines_of_newline r2 r3 c3 h3]
        simp only [List.drop_succ_cons, List.drop_zero]
        rw [loadLoop_good (k + 1) r3 _ (by omega)]
        simp

/-- On a file that cannot be opened the loop never ends: `failbit` is set, `eofbit` never
is. -/
theorem loadLoop_failed (fuel : Nat) (f : IStream) (m : Manifest)
    (he : f.eofbit = false) (hf : f.failbit = true) : loadLoop fuel f m = none := by
  induction fuel generalizing f m with
  | zero => rfl
  | succ fuel ih =>
    have hg : getline f [] = ({ f with failbit := true }, []) := getline_fail f [] hf
    have hi := ih { f with failbit := true } m he rfl
    simp only [loadLoop, he, hg]
    simpa [he] using hi

theorem LoadImages_unopened (fuel : Nat) : LoadImages fuel none = none := by
  simp only [LoadImages, IStream.ofFile]
  rw [getline_fail _ _ rfl, getline_fail _ _ rfl, getline_fail _ _ rfl]
  exact loadLoop_failed fuel _ _ rfl rfl

end Loader2

end MonoTum

namespace MonoTum

section Fields

/-- White space is none of the characters a number is made of. -/
theorem isSpace_not_numeric (w : Char) (h : isSpace w = true) :
    w.isDigit = false ∧ w ≠ '.' ∧ w ≠ 'e' ∧ w ≠ 'E' ∧ w ≠ '+' ∧ w ≠ '-' := by
  unfold isSpace at h
  simp at h
  rcases h with ((((h | h) | h) | h) | h) | h <;> subst h <;> decide

theorem scanBody_cons (c : Char) (cs : List Char) (dec sci mant : Bool) :
    scanBody (c :: cs) dec sci mant =
      if c.isDigit = true then (c :: (scanBody cs dec sci true).1, (scanBody cs dec sci true).2)
      else if c = '.' ∧ dec = false ∧ sci = false then
        ('.' :: (scanBody cs true sci mant).1, (scanBody cs true sci mant).2)
      else if (c = 'e' ∨ c = 'E') ∧ sci = false ∧ mant = true then
        match cs with
        | [] => (['e'], [])
        | s :: cs' =>
          if s = '+' ∨ s = '-' then
            ('e' :: s :: (scanBody cs' dec true mant).1, (scanBody cs' dec true mant).2)
          else
            ('e' :: (scanBody (s :: cs') dec true mant).1, (scanBody (s :: cs') dec true mant).2)
      else ([], c :: cs) := by
  rw [scanBody.eq_def]

theorem scanBody_stop (w : Char) (tail : List Char) (dec sci mant : Bool)
    (h : isSpace w = true) : scanBody (w :: tail) dec sci mant = ([], w :: tail) := by
  obtain ⟨h1, h2, h3, h4, _, _⟩ := isSpace_not_numeric w h
  simp [scanBody_cons, h1, h2, h3, h4]

/-- The extraction of a number stops at white space: what follows the first white space
has no influence on the text taken. -/
theorem scanBody_append_space (l : List Char) (w : Char) (tail : List Char)
    (h : isSpace w = true) (dec sci mant : Bool) :
    scanBody (l ++ w :: tail) dec sci mant
      = ((scanBody l dec sci mant).1, (scanBody l dec sci mant).2 ++ w :: tail) := by
  generalize hn : l.length = n
  induction n using Nat.strong_induction_on generalizing l dec sci mant with
  | _ n ih =>
    cases l with
    | nil => simp [scanBody_stop w tail _ _ _ h, scanBody]
    | cons c cs =>
      have ihcs : ∀ d s m, scanBody (cs ++ w :: tail) d s m
          = ((scanBody cs d s m).1, (scanBody cs d s m).2 ++ w :: tail) := by
        intro d s m
        exact ih cs.length (by simp [← hn]) cs d s m rfl
      rw [List.cons_append, scanBody_cons c (cs ++ w :: tail), scanBody_cons c cs]
      by_cases h1 : c.isDigit = true
      · simp [h1, ihcs]
      · simp only [h1, Bool.false_eq_true, if_false]
        by_cases h2 : c = '.' ∧ dec = false ∧ sci = false
        · simp [h2, ihcs]
        · simp only [h2, if_false]
          by_cases h3 : (c = 'e' ∨ c = 'E') ∧ sci = false ∧ mant = true
          · rw [if_pos h3, if_pos h3]
            cases cs with
            | nil =>
              obtain ⟨_, _, _, _, h5, h6⟩ := isSpace_not_numeric w h
              simp [h5, h6, scanBody_stop w tail _ _ _ h]
            | cons s cs' =>
              simp only [List.cons_append]
              by_cases h4 : s = '+' ∨ s = '-'
              · have := ih cs'.length (by rw [← hn]; simp; omega) cs' dec true mant rfl
                rw [if_pos h4, if_pos h4, this]
              · have := ihcs dec true mant
                simp only [List.cons_append] at this
                rw [if_neg h4, if_neg h4, this]
          · rw [if_neg h3, if_neg h3]; rfl

theorem scanFloat_append_space (l : List Char) (w : Char) (tail : List Char)
    (h : isSpace w = true) (hl : l ≠ []) :
    scanFloat (l ++ w :: tail) = ((scanFloat l).1, (scanFloat l).2 ++ w :: tail) := by
  cases l with
  | nil => exact absurd rfl hl
  | cons c cs =>
    simp only [List.cons_append, scanFloat]
    by_cases hs : c = '+' ∨ c = '-'
    · simp [hs, scanBody_append_space cs w tail h]
    · have := scanBody_append_space (c :: cs) w tail h false false false
      simp only [List.cons_append] at this
      simp [hs, this]

end Fields

end MonoTum

namespace MonoTum

section Fields2

theorem dropWhile_append_all {α : Type} (p : α → Bool) (a b : List α)
    (h : ∀ c ∈ a, p c = true) : (a ++ b).dropWhile p = b.dropWhile p := by
  induction a with
  | nil => rfl
  | cons x xs ih =>
    have hx : p x = true := h x (List.mem_cons_self x xs)
    simp only [List.cons_append, List.dropWhile_cons, hx, if_true]
    exact ih (fun c hc => h c (List.mem_cons_of_mem x hc))

theorem takeWhile_append_all {α : Type} (p : α → Bool) (a b : List α)
    (h : ∀ c ∈ a, p c = true) : (a ++ b).takeWhile p = a ++ b.takeWhile p := by
  induction a with
  | nil => rfl
  | cons x xs ih =>
    have hx : p x = true := h x (List.mem_cons_self x xs)
    simp only [List.cons_append, List.takeWhile_cons, hx, if_true]
    rw [ih (fun c hc => h c (List.mem_cons_of_mem x hc))]

theorem takeWhile_stop {α : Type} (p : α → Bool) (b : List α)
    (h : ∀ c, b.head? = some c → p c = false) : b.takeWhile p = [] := by
  cases b with
  | nil => rfl
  | cons x xs => simp [List.takeWhile_cons, h x rfl]

theorem dropWhile_stop {α : Type} (p : α → Bool) (b : List α)
    (h : ∀ c, b.head? = some c → p c = false) : b.dropWhile p = b := by
  cases b with
  | nil => rfl
  | cons x xs => simp [List.dropWhile_cons, h x rfl]

/-- A line made of a first field that the extraction takes whole, white space and a second
field: the record is what the conversion of the first field stores, with the second field
as name when the conversion succeeds and the empty name when it fails. -/
theorem parseLine_fields (pre f1 sep f2 post : List Char)
    (hpre : ∀ c ∈ pre, isSpace c = true)
    (hf1 : ∀ c, f1.head? = some c → isSpace c = false) (hne : f1 ≠ [])
    (hscan : (scanFloat f1).2 = [])
    (hsep : sep ≠ []) (hseps : ∀ c ∈ sep, isSpace c = true)
    (hf2 : f2 ≠ []) (hf2s : ∀ c ∈ f2, isSpace c = false)
    (hpost : ∀ c, post.head? = some c → isSpace c = true) :
    parseLine (pre ++ f1 ++ sep ++ f2 ++ post) =
      if (convertToV (scanFloat f1).1).2 = true then (some (convertToV (scanFloat f1).1).1, [])
      else (some (convertToV (scanFloat f1).1).1, f2) := by
  obtain ⟨c, cs, rfl⟩ := List.exists_cons_of_ne_nil hne
  obtain ⟨w, sep', rfl⟩ := List.exists_cons_of_ne_nil hsep
  obtain ⟨d, f2', rfl⟩ := List.exists_cons_of_ne_nil hf2
  have hc : isSpace c = false := hf1 c rfl
  have hw : isSpace w = true := hseps w (List.mem_cons_self w sep')
  have hd : isSpace d = false := hf2s d (List.mem_cons_self d f2')
  have h1 : (pre ++ (c :: cs) ++ (w :: sep') ++ (d :: f2') ++ post).dropWhile isSpace
      = c :: (cs ++ w :: (sep' ++ (d :: f2') ++ post)) := by
    have : pre ++ (c :: cs) ++ (w :: sep') ++ (d :: f2') ++ post
        = pre ++ (c :: (cs ++ w :: (sep' ++ (d :: f2') ++ post))) := by simp
    rw [this, dropWhile_append_all isSpace pre _ hpre]
    simp [List.dropWhile_cons, hc]
  have h2 := scanFloat_append_space (c :: cs) w (sep' ++ (d :: f2') ++ post) hw (by simp)
  simp only [List.cons_append] at h2
  have h3 : ((w :: sep') ++ ((d :: f2') ++ post)).dropWhile isSpace = (d :: f2') ++ post := by
    rw [dropWhile_append_all isSpace (w :: sep') _ hseps]
    simp [List.dropWhile_cons, hd]
  have h4 : ((d :: f2') ++ post).takeWhile (fun x => !isSpace x) = d :: f2' := by
    rw [takeWhile_append_all _ (d :: f2') post (fun x hx => by simp [hf2s x hx])]
    rw [takeWhile_stop _ post (fun x hx => by simp [hpost x hx])]
    simp
  have h5 : w :: (sep' ++ d :: f2' ++ post) = (w :: sep') ++ ((d :: f2') ++ post) := by simp
  simp only [parseLine, h1, h2, hscan, List.nil_append]
  rw [h5, h3, h4]

end Fields2

end MonoTum

namespace MonoTum

section Decimal

theorem isDigit_not_mark (d : Char) (h : d.isDigit = true) :
    d ≠ '+' ∧ d ≠ '-' ∧ d ≠ '.' ∧ d ≠ 'e' ∧ d ≠ 'E' ∧ isSpace d = false := by
  refine ⟨?_, ?_, ?_, ?_, ?_, ?_⟩
  · intro e; subst e; revert h; decide
  · intro e; subst e; revert h; decide
  · intro e; subst e; revert h; decide
  · intro e; subst e; revert h; decide
  · intro e; subst e; revert h; decide
  · cases hs : isSpace d with
    | false => rfl
    | true => rw [(isSpace_not_numeric d hs).1] at h; cases h

theorem digitChars_isDigit (ds : List (Fin 10)) : ∀ c ∈ digitChars ds, c.isDigit = true := by
  intro c hc
  obtain ⟨d, _, rfl⟩ := List.mem_map.mp hc
  exact digitChar_isDigit d.val d.isLt

theorem digitChars_eq_nil (ds : List (Fin 10)) : digitChars ds = [] ↔ ds = [] := by
  simp [digitChars]

theorem digitChars_length (ds : List (Fin 10)) : (digitChars ds).length = ds.length := by
  simp [digitChars]

/-- The digits read by the conversion have the value given by `Nat.ofDigits`. -/
theorem digitsValue_digitChars (ds : List (Fin 10)) :
    digitsValue (digitChars ds) = digitsNat ds := by
  induction ds using List.reverseRecOn with
  | nil => rfl
  | append_singleton ds d ih =>
    have h1 : digitsValue (digitChars (ds ++ [d]))
        = 10 * digitsValue (digitChars ds) + d.val := by
      simp [digitsValue, digitChars, List.foldl_append, digitChar_toNat d.val d.isLt]
    have h2 : digitsNat (ds ++ [d]) = d.val + 10 * digitsNat ds := by
      simp [digitsNat, Nat.ofDigits_cons]
    rw [h1, h2, ih]
    omega

/-- A run of digits is taken whole. -/
theorem scanBody_digits (ds rest : List Char) (hds : ∀ c ∈ ds, c.isDigit = true)
    (dec sci mant : Bool) :
    scanBody (ds ++ rest) dec sci mant
      = (ds ++ (scanBody rest dec sci (mant || !ds.isEmpty)).1,
          (scanBody rest dec sci (mant || !ds.isEmpty)).2) := by
  induction ds generalizing mant with
  | nil => simp
  | cons d ds ih =>
    have hd : d.isDigit = true := hds d (List.mem_cons_self d ds)
    rw [List.cons_append, scanBody_cons, if_pos hd,
      ih (fun c hc => hds c (List.mem_cons_of_mem d hc)) true]
    simp

theorem scanBody_all_digits (ds : List Char) (hds : ∀ c ∈ ds, c.isDigit = true)
    (dec sci mant : Bool) : scanBody ds dec sci mant = (ds, []) := by
  have := scanBody_digits ds [] hds dec sci mant
  simpa [scanBody] using this

theorem signChars_cases (s : Option Bool) :
    signChars s = [] ∨ signChars s = ['+'] ∨ signChars s = ['-'] := by
  rcases s with _ | b
  · exact Or.inl rfl
  · cases b
    · exact Or.inr (Or.inl rfl)
    · exact Or.inr (Or.inr rfl)

/-- The exponent is taken whole, its mark stored as `e`. -/
theorem scanBody_expPart (l : DecimalLiteral) (hwf : l.wellFormed = true) (dec : Bool)
    (mark : Char) (hm : mark = 'e' ∨ mark = 'E') :
    scanBody (l.expPart mark) dec false true = (l.expPart 'e', []) := by
  unfold DecimalLiteral.expPart
  rcases he : l.exponent with _ | e
  · simp [scanBody]
  · obtain ⟨es, ed⟩ := e
    have hed : ed ≠ [] := by
      simp [DecimalLiteral.wellFormed, he] at hwf
      exact hwf.2
    obtain ⟨d, ed', rfl⟩ := List.exists_cons_of_ne_nil hed
    have hall := digitChars_isDigit (d :: ed')
    have hmd : mark.isDigit = false := by
      rcases hm with h | h <;> subst h <;> decide
    have hmp : mark ≠ '.' := by
      rcases hm with h | h <;> subst h <;> decide
    simp only
    rw [scanBody_cons, if_neg (by simp [hmd]), if_neg (by simp [hmp]),
      if_pos ⟨hm, rfl, rfl⟩]
    have hdc : digitChars (d :: ed') = Nat.digitChar d.val :: digitChars ed' := rfl
    have hdd := isDigit_not_mark (Nat.digitChar d.val) (digitChar_isDigit d.val d.isLt)
    rcases es with _ | b
    · simp only [signChars, List.nil_append, hdc]
      rw [if_neg (by simp [hdd.1, hdd.2.1]), ← hdc, scanBody_all_digits _ hall]
    · cases b
      · simp only [signChars, List.cons_append, List.nil_append]
        rw [if_pos (by simp), scanBody_all_digits _ hall]
      · simp only [signChars, List.cons_append, List.nil_append]
        rw [if_pos (by simp), scanBody_all_digits _ hall]

/-- The mantissa and the exponent of a literal are taken whole. -/
theorem scanBody_literal (l : DecimalLiteral) (hwf : l.wellFormed = true)
    (mark : Char) (hm : mark = 'e' ∨ mark = 'E') :
    scanBody (digitChars l.intDigits ++ (l.fracPart ++ l.expPart mark)) false false false
      = (digitChars l.intDigits ++ (l.fracPart ++ l.expPart 'e'), []) := by
  rw [scanBody_digits _ _ (digitChars_isDigit _)]
  unfold DecimalLiteral.fracPart
  rcases hf : l.fracDigits with _ | fp
  · have hip : (digitChars l.intDigits).isEmpty = false := by
      simp [DecimalLiteral.wellFormed, hf] at hwf
      simpa [digitChars] using hwf.1
    simp only [List.nil_append, hip, Bool.not_false, Bool.or_true]
    rw [scanBody_expPart l hwf false mark hm]
  · have hpd : ('.' : Char).isDigit = false := by decide
    have hmant : ((false || !(digitChars l.intDigits).isEmpty)
        || !(digitChars fp).isEmpty) = true := by
      simp [DecimalLiteral.wellFormed, hf] at hwf
      rcases hwf.1 with h | h
      · simp [digitChars, h]
      · simp [digitChars, h]
    simp only [List.cons_append]
    rw [scanBody_cons, if_neg (by simp [hpd]), if_pos ⟨rfl, rfl, rfl⟩,
      scanBody_digits _ _ (digitChars_isDigit fp), hmant, scanBody_expPart l hwf true mark hm]

theorem literal_head (l : DecimalLiteral) (hwf : l.wellFormed = true) (mark : Char) :
    ∃ c cs, digitChars l.intDigits ++ (l.fracPart ++ l.expPart mark) = c :: cs ∧
      c ≠ '+' ∧ c ≠ '-' ∧ isSpace c = false := by
  rcases hi : l.intDigits with _ | ⟨d, ip⟩
  · rcases hf : l.fracDigits with _ | fp
    · simp [DecimalLiteral.wellFormed, hi, hf] at hwf
    · refine ⟨'.', digitChars fp ++ l.expPart mark, ?_, by decide, by decide, by decide⟩
      simp [digitChars, DecimalLiteral.fracPart, hf]
  · have hdd := isDigit_not_mark (Nat.digitChar d.val) (digitChar_isDigit d.val d.isLt)
    exact ⟨Nat.digitChar d.val, digitChars ip ++ (l.fracPart ++ l.expPart mark), rfl,
      hdd.1, hdd.2.1, hdd.2.2.2.2.2⟩

/-- The text of a literal with its exponent mark stored as `e`. -/
theorem scanFloat_literal (l : DecimalLiteral) (hwf : l.wellFormed = true) :
    scanFloat l.text
      = (signChars l.sign ++ (digitChars l.intDigits ++ (l.fracPart ++ l.expPart 'e')), []) := by
  have hm : (if l.upperMark = true then 'E' else 'e') = 'e'
      ∨ (if l.upperMark = true then 'E' else 'e') = 'E' := by
    cases l.upperMark <;> simp
  have hb := scanBody_literal l hwf _ hm
  obtain ⟨c, cs, hcs, hc1, hc2, _⟩ := literal_head l hwf (if l.upperMark = true then 'E' else 'e')
  unfold DecimalLiteral.text
  rcases l.sign with _ | b
  · simp only [signChars, List.nil_append]
    rw [hcs] at hb ⊢
    simp only [scanFloat, hc1, hc2, or_self, if_false]
    exact hb
  · cases b
    · simp only [signChars, List.cons_append, List.nil_append, scanFloat, true_or, if_true, hb]
    · simp only [signChars, List.cons_append, List.nil_append, scanFloat, or_true, if_true, hb]

end Decimal

end MonoTum

namespace MonoTum

section Convert

theorem expPart_head (l : DecimalLiteral) :
    ∀ c, (l.expPart 'e').head? = some c → c.isDigit = false := by
  intro c hc
  unfold DecimalLiteral.expPart at hc
  rcases he : l.exponent with _ | e
  · simp [he] at hc
  · simp [he] at hc
    subst hc
    decide

theorem expPart_ne_point (l : DecimalLiteral) : (l.expPart 'e').head? ≠ some '.' := by
  unfold DecimalLiteral.expPart
  rcases he : l.exponent with _ | e
  · simp
  · simp

/-- The scaling by the exponent of a literal. -/
theorem strtodUnsigned_exp (l : DecimalLiteral) (hwf : l.wellFormed = true) (mant : ℚ) :
    (match l.expPart 'e' with
      | [] => some mant
      | 'e' :: r3 =>
        if (if r3.head? = some '-' ∨ r3.head? = some '+' then r3.tail else r3) ≠ [] ∧
            (if r3.head? = some '-' ∨ r3.head? = some '+' then r3.tail else r3).all
              Char.isDigit = true then
          some (if r3.head? = some '-' then mant / (10 : ℚ) ^ digitsValue
                  (if r3.head? = some '-' ∨ r3.head? = some '+' then r3.tail else r3)
                else mant * (10 : ℚ) ^ digitsValue
                  (if r3.head? = some '-' ∨ r3.head? = some '+' then r3.tail else r3))
        else none
      | _ => none)
    = some (mant * (match l.exponent with
      | none => 1
      | some e =>
        if e.1 = some true then 1 / (10 : ℚ) ^ digitsNat e.2 else (10 : ℚ) ^ digitsNat e.2)) := by
  unfold DecimalLiteral.expPart
  rcases he : l.exponent with _ | e
  · simp
  · obtain ⟨es, ed⟩ := e
    have hed : ed ≠ [] := by
      simp [DecimalLiteral.wellFormed, he] at hwf
      exact hwf.2
    have hedc : digitChars ed ≠ [] := fun h => hed ((digitChars_eq_nil ed).mp h)
    have hall : (digitChars ed).all Char.isDigit = true := by
      rw [List.all_eq_true]
      exact digitChars_isDigit ed
    obtain ⟨d, ed', rfl⟩ := List.exists_cons_of_ne_nil hed
    have hdc : digitChars (d :: ed') = Nat.digitChar d.val :: digitChars ed' := rfl
    have hdd := isDigit_not_mark (Nat.digitChar d.val) (digitChar_isDigit d.val d.isLt)
    rcases es with _ | b
    · have hh : (signChars none ++ digitChars (d :: ed')).head? = some (Nat.digitChar d.val) := rfl
      simp only [hh, Option.some.injEq, hdd.1, hdd.2.1, or_self, if_false]
      simp only [signChars, List.nil_append]
      rw [if_pos ⟨hedc, hall⟩, digitsValue_digitChars]
      simp
    · cases b
      · have hh : (signChars (some false) ++ digitChars (d :: ed')).head? = some '+' := rfl
        have ht : (signChars (some false) ++ digitChars (d :: ed')).tail
            = digitChars (d :: ed') := rfl
        simp only [hh, ht, or_true, if_true]
        rw [if_pos ⟨hedc, hall⟩, digitsValue_digitChars, if_neg (by decide)]
        simp
      · have hh : (signChars (some true) ++ digitChars (d :: ed')).head? = some '-' := rfl
        have ht : (signChars (some true) ++ digitChars (d :: ed')).tail
            = digitChars (d :: ed') := rfl
        simp only [hh, ht, true_or, if_true]
        rw [if_pos ⟨hedc, hall⟩, digitsValue_digitChars]
        simp [div_eq_mul_inv]

/-- The conversion of the unsigned part of a literal. -/
theorem strtodUnsigned_literal (l : DecimalLiteral) (hwf : l.wellFormed = true) :
    strtodUnsigned (digitChars l.intDigits ++ (l.fracPart ++ l.expPart 'e'))
      = some (l.mantissa * (match l.exponent with
        | none => 1
        | some e =>
          if e.1 = some true then 1 / (10 : ℚ) ^ digitsNat e.2
          else (10 : ℚ) ^ digitsNat e.2)) := by
  have hE := expPart_head l
  have hEp := expPart_ne_point l
  have hpd : ('.' : Char).isDigit = false := by decide
  unfold strtodUnsigned DecimalLiteral.fracPart DecimalLiteral.mantissa
  rcases hf : l.fracDigits with _ | fp
  · have hip : digitChars l.intDigits ≠ [] := by
      simp [DecimalLiteral.wellFormed, hf] at hwf
      intro h
      exact hwf.1 ((digitChars_eq_nil _).mp h)
    have ht : (digitChars l.intDigits ++ ([] ++ l.expPart 'e')).takeWhile Char.isDigit
        = digitChars l.intDigits := by
      rw [List.nil_append, takeWhile_append_all _ _ _ (digitChars_isDigit _),
        takeWhile_stop _ _ hE, List.append_nil]
    have hd : (digitChars l.intDigits ++ ([] ++ l.expPart 'e')).dropWhile Char.isDigit
        = l.expPart 'e' := by
      rw [List.nil_append, dropWhile_append_all _ _ _ (digitChars_isDigit _),
        dropWhile_stop _ _ hE]
    simp only [ht, hd, hEp, if_false, hip, false_and, not_false_eq_true,
      Option.getD_none, List.length_nil, pow_zero, div_one]
    have := strtodUnsigned_exp l hwf
      ((digitsValue (digitChars l.intDigits) : ℚ) + (digitsValue ([] : List Char) : ℚ))
    simp only [digitsValue_digitChars] at this ⊢
    have h0 : digitsNat [] = 0 := rfl
    have h1 : digitsValue ([] : List Char) = 0 := rfl
    rw [h0]
    rw [h1] at this
    exact this
  · have hne : ¬ (digitChars l.intDigits = [] ∧ digitChars fp = []) := by
      simp [DecimalLiteral.wellFormed, hf] at hwf
      rintro ⟨h1, h2⟩
      rcases hwf.1 with h | h
      · exact h ((digitChars_eq_nil _).mp h1)
      · exact h ((digitChars_eq_nil _).mp h2)
    have hR : ∀ c, ('.' :: (digitChars fp ++ l.expPart 'e')).head? = some c →
        c.isDigit = false := by
      intro c hc
      simp at hc
      subst hc
      exact hpd
    have ht : (digitChars l.intDigits ++ ('.' :: (digitChars fp ++ l.expPart 'e'))).takeWhile
        Char.isDigit = digitChars l.intDigits := by
      rw [takeWhile_append_all _ _ _ (digitChars_isDigit _), takeWhile_stop _ _ hR,
        List.append_nil]
    have hd : (digitChars l.intDigits ++ ('.' :: (digitChars fp ++ l.expPart 'e'))).dropWhile
        Char.isDigit = '.' :: (digitChars fp ++ l.expPart 'e') := by
      rw [dropWhile_append_all _ _ _ (digitChars_isDigit _), dropWhile_stop _ _ hR]
    have ht2 : (digitChars fp ++ l.expPart 'e').takeWhile Char.isDigit = digitChars fp := by
      rw [takeWhile_append_all _ _ _ (digitChars_isDigit _), takeWhile_stop _ _ hE,
        List.append_nil]
    have hd2 : (digitChars fp ++ l.expPart 'e').dropWhile Char.isDigit = l.expPart 'e' := by
      rw [dropWhile_append_all _ _ _ (digitChars_isDigit _), dropWhile_stop _ _ hE]
    simp only [List.cons_append, ht, hd, List.head?_cons, List.tail_cons, if_true, ht2, hd2,
      hne, if_false, Option.getD_some, digitChars_length, digitsValue_digitChars]
    exact strtodUnsigned_exp l hwf _

/-- The conversion of the text taken from a literal gives the number the literal
denotes. -/
theorem strtodExact_literal (l : DecimalLiteral) (hwf : l.wellFormed = true) :
    strtodExact (signChars l.sign ++ (digitChars l.intDigits ++ (l.fracPart ++ l.expPart 'e')))
      = some l.value := by
  have hu := strtodUnsigned_literal l hwf
  obtain ⟨c, cs, hcs, hc1, hc2, _⟩ := literal_head l hwf 'e'
  unfold strtodExact DecimalLiteral.value
  rcases hs : l.sign with _ | b
  · simp only [signChars, List.nil_append]
    rw [hcs] at hu ⊢
    simp only [List.head?_cons, Option.some.injEq, hc1, hc2, if_false, hu]
    simp [mul_assoc]
  · cases b
    · simp only [signChars, List.cons_append, List.nil_append, List.head?_cons,
        List.tail_cons, Option.some.injEq, hu]
      simp [mul_assoc]
    · simp only [signChars, List.cons_append, List.nil_append, List.head?_cons,
        List.tail_cons, if_true, hu]
      simp [mul_assoc]

/-- The text of a literal is not empty and does not start with white space. -/
theorem literal_text_head (l : DecimalLiteral) (hwf : l.wellFormed = true) :
    l.text ≠ [] ∧ ∀ c, l.text.head? = some c → isSpace c = false := by
  obtain ⟨c, cs, hcs, _, _, hc3⟩ := literal_head l hwf (if l.upperMark = true then 'E' else 'e')
  unfold DecimalLiteral.text
  rw [hcs]
  rcases l.sign with _ | b
  · refine ⟨by simp [signChars], ?_⟩
    intro d hd
    simp [signChars] at hd
    subst hd
    exact hc3
  · cases b
    · refine ⟨by simp [signChars], ?_⟩
      intro d hd
      simp [signChars] at hd
      subst hd
      decide
    · refine ⟨by simp [signChars], ?_⟩
      intro d hd
      simp [signChars] at hd
      subst hd
      decide

end Convert

end MonoTum

/-! ## The claims -/

namespace MonoTum

/-- C1, as stated, fails: the request made to `usleep` is a whole number of microseconds
in 32 bits.  For a gap of 0.1000001 s and 0.03 s elapsed the wait is 0.07 s, not the
difference 0.0700001 s; for a gap of 5000 s the argument does not fit `useconds_t`. -/
theorem C1_wait_not_exact :
    ¬ (∀ gap elapsed : ℚ, 0 ≤ elapsed → elapsed < gap →
        (framePacer gap elapsed).waitSeconds = some (gap - elapsed)) ∧
    (framePacer (1000001 / 10000000) (3 / 100)).waitSeconds = some (7 / 100) ∧
    framePacer 5000 0 = Pace.undefinedConversion := by
  have h2 : (framePacer (1000001 / 10000000) (3 / 100)).waitSeconds = some (7 / 100) := by
    decide!
  refine ⟨?_, h2, by decide!⟩
  intro h
  have h1 := h (1000001 / 10000000) (3 / 100) (by norm_num) (by norm_num)
  rw [h2] at h1
  norm_num at h1

/-- C1, amended: for every gap and every elapsed time `elapsed ≥ 0`, the playback loop does
not suspend when `gap ≤ elapsed`; when `elapsed < gap` and `(gap - elapsed) * 10^6` is below
`2^32` it calls `usleep` with `gap - elapsed` rounded down to whole microseconds, a wait
that is at most `gap - elapsed`, less than one microsecond short of it, and equal to it
when `gap - elapsed` is a whole number of microseconds.  A negative gap gives no wait, the
wait is never negative, `gap = 0.1`, `elapsed = 0.03` gives 0.07 s and `gap = 0.1`,
`elapsed = 0.2` gives 0. -/
theorem C1_frame_pacer_wait (gap elapsed : ℚ) (he : 0 ≤ elapsed) :
    (gap ≤ elapsed → framePacer gap elapsed = Pace.proceed) ∧
    (elapsed < gap → (gap - elapsed) * 1000000 < 4294967296 →
      ∃ usec : Nat, framePacer gap elapsed = Pace.sleep usec ∧
        usec = ⌊(gap - elapsed) * 1000000⌋₊ ∧
        (usec : ℚ) / 1000000 ≤ gap - elapsed ∧
        gap - elapsed < ((usec : ℚ) + 1) / 1000000 ∧
        ((∃ k : Nat, (gap - elapsed) * 1000000 = (k : ℚ)) →
          (framePacer gap elapsed).waitSeconds = some (gap - elapsed))) ∧
    (gap < 0 → framePacer gap elapsed = Pace.proceed) ∧
    (∀ w, (framePacer gap elapsed).waitSeconds = some w → 0 ≤ w) ∧
    (framePacer (1 / 10) (3 / 100)).waitSeconds = some (7 / 100) ∧
    (framePacer (1 / 10) (2 / 10)).waitSeconds = some 0 := by
  refine ⟨framePacer_proceed, ?_, ?_, waitSeconds_nonneg _, by decide!, by decide!⟩
  · intro hlt hr
    have hpos : 0 ≤ (gap - elapsed) * 1000000 := by nlinarith
    refine ⟨_, framePacer_sleep hlt hr, rfl, ?_, ?_, ?_⟩
    · rw [div_le_iff₀ (by norm_num)]
      exact Nat.floor_le hpos
    · rw [lt_div_iff₀ (by norm_num)]
      exact Nat.lt_floor_add_one _
    · rintro ⟨k, hk⟩
      rw [framePacer_sleep hlt hr, hk, Nat.floor_natCast]
      simp only [Pace.waitSeconds]
      rw [← hk]; congr 1; field_simp
  · intro hg
    exact framePacer_proceed (by linarith)

/-- C1 at `gap = 0.1`, `elapsed = 0.03`: the hypotheses hold and `usleep` is called. -/
theorem C1_frame_pacer_wait_witness :
    (0 : ℚ) ≤ 3 / 100 ∧ (3 / 100 : ℚ) < 1 / 10 ∧
    ((1 / 10 : ℚ) - 3 / 100) * 1000000 < 4294967296 ∧
    ∃ usec : Nat, framePacer (1 / 10) (3 / 100) = Pace.sleep usec ∧
      usec = ⌊((1 / 10 : ℚ) - 3 / 100) * 1000000⌋₊ :=
  ⟨by norm_num, by norm_num, by norm_num,
    by
      obtain ⟨u, h1, h2, _⟩ :=
        (C1_frame_pacer_wait (1 / 10) (3 / 100) (by norm_num)).2.1 (by norm_num) (by norm_num)
      exact ⟨u, h1, h2⟩⟩

/-- C2: for a manifest of `N` timestamps and a frame index `i < N` (so `N ≥ 1`), the gap
used for frame `i` is `timestamp[i+1] - timestamp[i]` when `i` is not the last frame,
`timestamp[i] - timestamp[i-1]` when `i` is the last frame and `N ≥ 2`, and `0` when the
sequence has a single frame. -/
theorem C2_frame_gap (vTimestamps : List ℚ) (N i : Nat)
    (hlen : vTimestamps.length = N) (hi : i < N) :
    (i + 1 < N → ∃ a b, vTimestamps[i]? = some a ∧ vTimestamps[i + 1]? = some b ∧
        frameGap vTimestamps (N : Int) i = b - a) ∧
    (i + 1 = N → 2 ≤ N → ∃ a b, vTimestamps[i - 1]? = some a ∧ vTimestamps[i]? = some b ∧
        frameGap vTimestamps (N : Int) i = b - a) ∧
    (N = 1 → frameGap vTimestamps (N : Int) i = 0) := by
  subst hlen
  refine ⟨?_, ?_, ?_⟩
  · intro h
    have h0 : (i : Int) < (vTimestamps.length : Int) - 1 := by omega
    refine ⟨vTimestamps[i], vTimestamps[i + 1], List.getElem?_eq_getElem hi,
      List.getElem?_eq_getElem h, ?_⟩
    simp [frameGap, h0, List.getD_eq_getElem?_getD, List.getElem?_eq_getElem hi,
      List.getElem?_eq_getElem h]
  · intro h h2
    have h1 : ¬ ((i : Int) < (vTimestamps.length : Int) - 1) := by omega
    have h3 : 0 < i := by omega
    have h4 : i - 1 < vTimestamps.length := by omega
    refine ⟨vTimestamps[i - 1], vTimestamps[i], List.getElem?_eq_getElem h4,
      List.getElem?_eq_getElem hi, ?_⟩
    simp [frameGap, h1, h3, List.getD_eq_getElem?_getD, List.getElem?_eq_getElem hi,
      List.getElem?_eq_getElem h4]
  · intro h
    have h1 : ¬ ((i : Int) < (vTimestamps.length : Int) - 1) := by omega
    have h3 : ¬ (0 < i) := by omega
    simp [frameGap, h1, h3]

/-- C2 at the last frame of the timestamps `1, 3, 7`. -/
theorem C2_frame_gap_witness :
    ([1, 3, 7] : List ℚ).length = 3 ∧ 2 < 3 ∧ 2 + 1 = 3 ∧
    ∃ a b, ([1, 3, 7] : List ℚ)[2 - 1]? = some a ∧ ([1, 3, 7] : List ℚ)[2]? = some b ∧
      frameGap [1, 3, 7] ((3 : Nat) : Int) 2 = b - a :=
  ⟨rfl, by decide, rfl, (C2_frame_gap [1, 3, 7] 3 2 rfl (by decide)).2.1 rfl (by decide)⟩

end MonoTum

namespace MonoTum

/-- C3: with the live pose file as explicit state, after the playback loop has processed
the first `n` frames the file holds exactly the line serialized for the most recent frame
of that prefix whose tracking state was OK, and is as it was initially (absent if it was
absent) when no frame of the prefix was OK.  Hence a frame whose state is not OK (LOST in
particular) writes nothing and leaves the previous content, and two successive OK frames
leave the second pose's line only.  What is written is a single line. -/
theorem C3_live_pose_file {SE3 Mat : Type} (ops : PoseOps SE3 Mat) (env : SeqEnv SE3)
    (files : List (List Char)) (ts : List ℚ) (rescale : Bool) (st0 : LoopState) (n : Nat)
    (hload : ∀ i, i < n → env.imEmpty i = false) :
    ∃ st, playback ops env files ts rescale st0 n = Except.ok st ∧
      (∀ i, i < n → env.state i = eTrackingState.OK →
        (∀ k, i < k → k < n → env.state k ≠ eTrackingState.OK) →
        st.livePose = some (writeLivePose ops (ts.getD i 0) (env.Tcw i))) ∧
      ((∀ i, i < n → env.state i ≠ eTrackingState.OK) → st.livePose = st0.livePose) ∧
      (∀ st1, playback ops env files ts rescale st0 (n + 1) = Except.ok st1 →
        env.state n ≠ eTrackingState.OK → st1.livePose = st.livePose) ∧
      (∀ st2, playback ops env files ts rescale st0 (n + 2) = Except.ok st2 →
        env.state n = eTrackingState.OK → env.state (n + 1) = eTrackingState.OK →
        st2.livePose = some (writeLivePose ops (ts.getD (n + 1) 0) (env.Tcw (n + 1)))) ∧
      (∀ tframe Tcw, ∃ body, writeLivePose ops tframe Tcw = body ++ ['\n'] ∧ '\n' ∉ body) := by
  obtain ⟨st, hst⟩ := playback_ok ops env files ts rescale st0 n hload
  obtain ⟨h1, h2⟩ := playback_livePose ops env files ts rescale st0 n st hst
  refine ⟨st, hst, h1, h2, ?_, ?_, ?_⟩
  · intro st1 hst1 hne
    have hE := playback_ok_imp ops env files ts rescale st0 (n + 1) st1 hst1 n
      (Nat.lt_succ_self n)
    rw [playback_succ_ok ops env files ts rescale st0 hst,
      frameBody_ok ops env files ts rescale st hE] at hst1
    injection hst1 with hst1
    subst hst1
    simp only [if_neg hne]
  · intro st2 hst2 _ hok
    exact (playback_livePose ops env files ts rescale st0 (n + 2) st2 hst2).1 (n + 1)
      (Nat.lt_succ_self _) hok (fun k hk1 hk2 => by omega)
  · intro tframe Tcw
    exact livePoseLine_one_line _ _ _

/-- C3 on two frames, the second of which is lost: the file holds the line of frame 0 after
either frame. -/
theorem C3_live_pose_file_witness :
    (∀ i, i < 1 → sampleEnv.imEmpty i = false) ∧
    ∃ st, playback exactOps sampleEnv ["a.png".toList, "b.png".toList] [0, 1 / 10] false
        { livePose := none, vTimesTrack := [0, 0], trace := [] } 1 = Except.ok st ∧
      st.livePose = some (writeLivePose exactOps 0 (sampleEnv.Tcw 0)) ∧
      ∀ st1, playback exactOps sampleEnv ["a.png".toList, "b.png".toList] [0, 1 / 10] false
        { livePose := none, vTimesTrack := [0, 0], trace := [] } 2 = Except.ok st1 →
        st1.livePose = st.livePose := by
  have hload : ∀ i, i < 1 → sampleEnv.imEmpty i = false := fun _ _ => rfl
  obtain ⟨st, hst, h1, _, h3, _⟩ := C3_live_pose_file exactOps sampleEnv
    ["a.png".toList, "b.png".toList] [0, 1 / 10] false
    { livePose := none, vTimesTrack := [0, 0], trace := [] } 1 hload
  refine ⟨hload, st, hst, ?_, fun st1 hst1 => h3 st1 hst1 (by decide)⟩
  have := h1 0 (by decide) rfl (fun k hk1 hk2 => by omega)
  simpa using this

/-- C4: the line written for a frame tracked with state OK consists of the eight fields
`timestamp tx ty tz qx qy qz qw` in this order, separated by single spaces and ended by one
newline, where `(tx,ty,tz)` and `(qx,qy,qz,qw)` are the translation and the rotation
quaternion of the inverse of the transform returned by the engine.  Each field is its
value printed in fixed notation with exactly six decimals (`PrintsFixed6`, which
determines the text), and so is free of spaces and newlines.  A pose with translation
`(1,2,3)` and identity rotation gives the seven trailing fields
`1.000000 2.000000 3.000000 0.000000 0.000000 0.000000 1.000000`. -/
theorem C4_live_pose_serialization {SE3 Mat : Type} (ops : PoseOps SE3 Mat)
    (env : SeqEnv SE3) (files : List (List Char)) (ts : List ℚ) (rescale : Bool)
    (ni : Nat) (st : LoopState)
    (hload : env.imEmpty ni = false) (hok : env.state ni = eTrackingState.OK) :
    ∃ st1, frameBody ops env files ts rescale ni st = Except.ok st1 ∧
      st1.livePose = some (writeLivePose ops (ts.getD ni 0) (env.Tcw ni)) ∧
      (∃ fs : List (List Char),
        writeLivePose ops (ts.getD ni 0) (env.Tcw ni)
          = List.intercalate [' '] fs ++ ['\n'] ∧
        List.Forall₂ PrintsFixed6
          [ts.getD ni 0,
           (ops.translation (ops.inverse (env.Tcw ni))).x,
           (ops.translation (ops.inverse (env.Tcw ni))).y,
           (ops.translation (ops.inverse (env.Tcw ni))).z,
           (ops.quaternionOfMatrix (ops.rotationMatrix (ops.inverse (env.Tcw ni)))).x,
           (ops.quaternionOfMatrix (ops.rotationMatrix (ops.inverse (env.Tcw ni)))).y,
           (ops.quaternionOfMatrix (ops.rotationMatrix (ops.inverse (env.Tcw ni)))).z,
           (ops.quaternionOfMatrix (ops.rotationMatrix (ops.inverse (env.Tcw ni)))).w] fs ∧
        ∀ f ∈ fs, IsFixed6 f ∧ ' ' ∉ f ∧ '\n' ∉ f) ∧
      (∀ (x : ℚ) (s t : List Char), PrintsFixed6 x s → PrintsFixed6 x t → s = t) ∧
      (∀ x : ℚ, PrintsFixed6 x (fixed6 x) ∧ IsFixed6 (fixed6 x) ∧
        ' ' ∉ fixed6 x ∧ '\n' ∉ fixed6 x) ∧
      (ops.translation (ops.inverse (env.Tcw ni)) = { x := 1, y := 2, z := 3 } →
        ops.quaternionOfMatrix (ops.rotationMatrix (ops.inverse (env.Tcw ni)))
          = { x := 0, y := 0, z := 0, w := 1 } →
        ∃ f0, PrintsFixed6 (ts.getD ni 0) f0 ∧
          writeLivePose ops (ts.getD ni 0) (env.Tcw ni) = f0 ++
            " 1.000000 2.000000 3.000000 0.000000 0.000000 0.000000 1.000000\n".toList) ∧
      (∀ tframe : ℚ, ∃ f0, PrintsFixed6 tframe f0 ∧
        writeLivePose exactOps tframe
            { rotation := Matrix3.one, translation := { x := -1, y := -2, z := -3 } }
          = f0 ++
            " 1.000000 2.000000 3.000000 0.000000 0.000000 0.000000 1.000000\n".toList) ∧
      livePoseLine (1305031102175304 / 1000000) { x := 4, y := -5 / 2, z := 1 / 3 }
          { x := 0, y := -2 / 3, z := 3 / 5, w := 4 / 5 }
        = ("1305031102.175304 4.000000 -2.500000 0.333333 "
            ++ "0.000000 -0.666667 0.600000 0.800000\n").toList ∧
      fixed6 (1 / 128) = "0.007812".toList ∧ fixed6 (3 / 128) = "0.023438".toList ∧
      fixed6 (-1 / 1000000000) = "-0.000000".toList := by
  have e0 : fixed6 0 = "0.000000".toList := by decide!
  have e1 : fixed6 1 = "1.000000".toList := by decide!
  have e2 : fixed6 2 = "2.000000".toList := by decide!
  have e3 : fixed6 3 = "3.000000".toList := by decide!
  refine ⟨_, frameBody_ok ops env files ts rescale st hload, ?_, ?_, printsFixed6_unique, ?_,
    ?_, ?_, by decide!, by decide!, by decide!, by decide!⟩
  · simp only [if_pos hok]
  · refine ⟨List.map fixed6
      [ts.getD ni 0,
       (ops.translation (ops.inverse (env.Tcw ni))).x,
       (ops.translation (ops.inverse (env.Tcw ni))).y,
       (ops.translation (ops.inverse (env.Tcw ni))).z,
       (ops.quaternionOfMatrix (ops.rotationMatrix (ops.inverse (env.Tcw ni)))).x,
       (ops.quaternionOfMatrix (ops.rotationMatrix (ops.inverse (env.Tcw ni)))).y,
       (ops.quaternionOfMatrix (ops.rotationMatrix (ops.inverse (env.Tcw ni)))).z,
       (ops.quaternionOfMatrix (ops.rotationMatrix (ops.inverse (env.Tcw ni)))).w], ?_, ?_, ?_⟩
    · simp [writeLivePose, livePoseLine, List.intercalate]
    · simp only [List.map_cons, List.map_nil]
      repeat first
        | exact List.Forall₂.nil
        | refine List.Forall₂.cons (fixed6_prints _) ?_
    · intro f hf
      obtain ⟨x, _, rfl⟩ := List.mem_map.mp hf
      exact ⟨fixed6_shape x, fixed6_no_blank x⟩
  · intro x
    exact ⟨fixed6_prints x, fixed6_shape x, fixed6_no_blank x⟩
  · intro ht hq
    refine ⟨fixed6 (ts.getD ni 0), fixed6_prints _, ?_⟩
    simp only [writeLivePose, livePoseLine, ht, hq, e0, e1, e2, e3]
    simp
  · intro tframe
    refine ⟨fixed6 tframe, fixed6_prints _, ?_⟩
    have ht : exactOps.translation (exactOps.inverse
        { rotation := Matrix3.one, translation := { x := -1, y := -2, z := -3 } })
        = { x := 1, y := 2, z := 3 } := by decide!
    have hq : exactOps.quaternionOfMatrix (exactOps.rotationMatrix (exactOps.inverse
        { rotation := Matrix3.one, translation := { x := -1, y := -2, z := -3 } }))
        = { x := 0, y := 0, z := 0, w := 1 } := by decide!
    simp only [writeLivePose, livePoseLine, ht, hq, e0, e1, e2, e3]
    simp

/-- C4 on a frame whose inverse transform has translation `(1,2,3)` and identity rotation. -/
theorem C4_live_pose_serialization_witness :
    sampleEnv.imEmpty 0 = false ∧ sampleEnv.state 0 = eTrackingState.OK ∧
    writeLivePose exactOps (([5 / 2] : List ℚ).getD 0 0) (sampleEnv.Tcw 0) =
      "2.500000 1.000000 2.000000 3.000000 0.000000 0.000000 0.000000 1.000000\n".toList := by
  obtain ⟨_, _, _, _, hu, hp, h, _⟩ := C4_live_pose_serialization exactOps sampleEnv
    ["a.png".toList] [5 / 2] false 0 { livePose := none, vTimesTrack := [0], trace := [] }
    rfl rfl
  refine ⟨rfl, rfl, ?_⟩
  obtain ⟨f0, hf0, hline⟩ := h (by decide!) (by decide!)
  have e : f0 = fixed6 (([5 / 2] : List ℚ).getD 0 0) := hu _ _ _ hf0 (hp _).1
  rw [hline, e]
  decide!

end MonoTum

namespace MonoTum

section Main

variable {SE3 Mat : Type} (ops : PoseOps SE3 Mat) (env : SeqEnv SE3)
  (init : Option (List Char)) (imageScale : ℚ) (files : List (List Char)) (ts : List ℚ)

/-- The run when the loop is left through line 61. -/
theorem mainAfterLoad_error (e : LoopState)
    (h : playback ops env files ts (decide (imageScale ≠ 1))
      { livePose := init, vTimesTrack := List.replicate files.length 0, trace := [] }
      files.length = Except.error e) :
    mainAfterLoad ops env init imageScale files ts =
      { exitCode := 1, trace := e.trace, livePose := e.livePose,
        vTimesTrack := e.vTimesTrack, median := none, mean := none } := by
  simp only [mainAfterLoad, h]

/-- The run when the loop completes. -/
theorem mainAfterLoad_ok (s : LoopState)
    (h : playback ops env files ts (decide (imageScale ≠ 1))
      { livePose := init, vTimesTrack := List.replicate files.length 0, trace := [] }
      files.length = Except.ok s) :
    mainAfterLoad ops env init imageScale files ts =
      { exitCode := 0
        trace := s.trace ++
          [Event.Shutdown, Event.SaveKeyFrameTrajectoryTUM "KeyFrameTrajectory.txt".toList]
        livePose := s.livePose
        vTimesTrack := s.vTimesTrack.insertionSort (· ≤ ·)
        median := (s.vTimesTrack.insertionSort (· ≤ ·)).get? (files.length / 2)
        mean := if files.length = 0 then none
          else some (((s.vTimesTrack.insertionSort (· ≤ ·)).take files.length).sum
            / files.length) } := by
  simp only [mainAfterLoad, h]

end Main

/-- C7: when the first image that fails to decode is at index `k` of the manifest, the run
exits with status 1 having passed exactly the frames `0 .. k-1` to the tracking engine, in
manifest order; neither the engine shutdown nor the keyframe trajectory export is
invoked. -/
theorem C7_image_load_failure {SE3 Mat : Type} (ops : PoseOps SE3 Mat) (env : SeqEnv SE3)
    (init : Option (List Char)) (imageScale : ℚ) (files : List (List Char)) (ts : List ℚ)
    (k : Nat) (hk : k < files.length) (hfail : env.imEmpty k = true)
    (hfirst : ∀ j, j < k → env.imEmpty j = false) :
    (mainAfterLoad ops env init imageScale files ts).exitCode = 1 ∧
    (mainAfterLoad ops env init imageScale files ts).trace.filterMap Event.tracked
      = (List.range k).map (fun i => (i, files.getD i [], ts.getD i 0)) ∧
    (mainAfterLoad ops env init imageScale files ts).trace.filter Event.isFinal = [] ∧
    Event.Shutdown ∉ (mainAfterLoad ops env init imageScale files ts).trace ∧
    (∀ path, Event.SaveKeyFrameTrajectoryTUM path
      ∉ (mainAfterLoad ops env init imageScale files ts).trace) := by
  obtain ⟨s, hs⟩ := playback_ok ops env files ts (decide (imageScale ≠ 1))
    { livePose := init, vTimesTrack := List.replicate files.length 0, trace := [] } k hfirst
  have herr : playback ops env files ts (decide (imageScale ≠ 1))
      { livePose := init, vTimesTrack := List.replicate files.length 0, trace := [] } (k + 1)
      = Except.error s := by
    rw [playback_succ_ok ops env files ts _ _ hs, frameBody_error ops env files ts _ s hfail]
  have hall := playback_error_of_le ops env files ts _ _ herr files.length hk
  rw [mainAfterLoad_error ops env init imageScale files ts s hall]
  have htr := playback_tracked ops env files ts _ _ k s hs
  have hfin := playback_no_final ops env files ts _ _ k s hs
  simp only [List.filterMap_nil, List.nil_append, List.filter_nil] at htr hfin
  refine ⟨rfl, htr, hfin, ?_, ?_⟩
  · intro hmem
    have : Event.Shutdown ∈ s.trace.filter Event.isFinal :=
      List.mem_filter.mpr ⟨hmem, rfl⟩
    rw [hfin] at this
    cases this
  · intro path hmem
    have : Event.SaveKeyFrameTrajectoryTUM path ∈ s.trace.filter Event.isFinal :=
      List.mem_filter.mpr ⟨hmem, rfl⟩
    rw [hfin] at this
    cases this

/-- C7 on three frames, the second of which cannot be decoded. -/
theorem C7_image_load_failure_witness :
    1 < ["a.png".toList, "b.png".toList, "c.png".toList].length ∧
    sampleEnvBadImage.imEmpty 1 = true ∧
    (∀ j, j < 1 → sampleEnvBadImage.imEmpty j = false) ∧
    (mainAfterLoad exactOps sampleEnvBadImage none 1
      ["a.png".toList, "b.png".toList, "c.png".toList] [0, 1 / 10, 2 / 10]).exitCode = 1 := by
  have h1 : ∀ j, j < 1 → sampleEnvBadImage.imEmpty j = false := by
    intro j hj
    have : j = 0 := by omega
    subst this
    rfl
  exact ⟨by decide, rfl, h1,
    (C7_image_load_failure exactOps sampleEnvBadImage none 1
      ["a.png".toList, "b.png".toList, "c.png".toList] [0, 1 / 10, 2 / 10] 1
      (by decide) rfl h1).1⟩

/-- C8: for a manifest of length `N` in which no image fails to load, the playback loop
tracks each manifest entry exactly once, in manifest order, and records exactly `N` timing
samples, the sample of entry `i` being the duration measured for frame `i`; sorting them
after the loop leaves `N` samples. -/
theorem C8_timing_sample_count {SE3 Mat : Type} (ops : PoseOps SE3 Mat) (env : SeqEnv SE3)
    (init : Option (List Char)) (imageScale : ℚ) (files : List (List Char)) (ts : List ℚ)
    (hload : ∀ i, i < files.length → env.imEmpty i = false) :
    (∃ st, playback ops env files ts (decide (imageScale ≠ 1))
        { livePose := init, vTimesTrack := List.replicate files.length 0, trace := [] }
        files.length = Except.ok st ∧
      st.vTimesTrack = (List.range files.length).map env.ttrack ∧
      st.vTimesTrack.length = files.length) ∧
    (mainAfterLoad ops env init imageScale files ts).trace.filterMap Event.tracked
      = (List.range files.length).map (fun i => (i, files.getD i [], ts.getD i 0)) ∧
    (mainAfterLoad ops env init imageScale files ts).vTimesTrack.Perm
      ((List.range files.length).map env.ttrack) ∧
    (mainAfterLoad ops env init imageScale files ts).vTimesTrack.length = files.length := by
  obtain ⟨s, hs⟩ := playback_ok ops env files ts (decide (imageScale ≠ 1))
    { livePose := init, vTimesTrack := List.replicate files.length 0, trace := [] }
    files.length hload
  have hsamples := playback_samples ops env files ts _ _ files.length s rfl hs
  have htr := playback_tracked ops env files ts _ _ files.length s hs
  simp only [List.filterMap_nil, List.nil_append] at htr
  rw [mainAfterLoad_ok ops env init imageScale files ts s hs]
  refine ⟨⟨s, hs, hsamples, by simp [hsamples]⟩, ?_, ?_, ?_⟩
  · simp [List.filterMap_append, htr, Event.tracked]
  · simpa [hsamples] using List.perm_insertionSort (· ≤ ·) s.vTimesTrack
  · simp [hsamples]

/-- C8 on two frames that load. -/
theorem C8_timing_sample_count_witness :
    (∀ i, i < ["a.png".toList, "b.png".toList].length → sampleEnv.imEmpty i = false) ∧
    (mainAfterLoad exactOps sampleEnv none 1 ["a.png".toList, "b.png".toList]
      [0, 1 / 10]).vTimesTrack.length = ["a.png".toList, "b.png".toList].length :=
  ⟨fun _ _ => rfl,
    (C8_timing_sample_count exactOps sampleEnv none 1 ["a.png".toList, "b.png".toList]
      [0, 1 / 10] (fun _ _ => rfl)).2.2.2⟩

/-- C10: after the loop has completed for a manifest of length `N`, the median is read from
the sorted samples at index `N / 2`; the index is within the bounds of the `N` samples
exactly when `N ≥ 1`, so that for an empty manifest the lookup at index 0 is out of bounds
and the mean divides by zero. -/
theorem C10_median_lookup {SE3 Mat : Type} (ops : PoseOps SE3 Mat) (env : SeqEnv SE3)
    (init : Option (List Char)) (imageScale : ℚ) (files : List (List Char)) (ts : List ℚ)
    (hload : ∀ i, i < files.length → env.imEmpty i = false) :
    (mainAfterLoad ops env init imageScale files ts).median
      = (mainAfterLoad ops env init imageScale files ts).vTimesTrack.get? (files.length / 2) ∧
    (mainAfterLoad ops env init imageScale files ts).vTimesTrack.length = files.length ∧
    (files.length / 2 < (mainAfterLoad ops env init imageScale files ts).vTimesTrack.length
      ↔ 1 ≤ files.length) ∧
    ((mainAfterLoad ops env init imageScale files ts).median ≠ none ↔ 1 ≤ files.length) ∧
    (files.length = 0 →
      files.length / 2 = 0 ∧
      (mainAfterLoad ops env init imageScale files ts).median = none ∧
      (mainAfterLoad ops env init imageScale files ts).mean = none) := by
  obtain ⟨s, hs⟩ := playback_ok ops env files ts (decide (imageScale ≠ 1))
    { livePose := init, vTimesTrack := List.replicate files.length 0, trace := [] }
    files.length hload
  have hsamples := playback_samples ops env files ts _ _ files.length s rfl hs
  have hlen : (s.vTimesTrack.insertionSort (· ≤ ·)).length = files.length := by
    simp [hsamples]
  rw [mainAfterLoad_ok ops env init imageScale files ts s hs]
  refine ⟨rfl, hlen, ?_, ?_, ?_⟩
  · simp only [hlen]
    constructor
    · intro h; omega
    · intro h; exact Nat.div_lt_self (by omega) (by norm_num)
  · simp only [ne_eq, List.get?_eq_none, hlen, not_le]
    constructor
    · intro h; omega
    · intro h; exact Nat.div_lt_self (by omega) (by norm_num)
  · intro h0
    refine ⟨by simp [h0], ?_, by simp [h0]⟩
    simp only [List.get?_eq_none, hlen]
    omega

/-- C10 on the empty manifest. -/
theorem C10_median_lookup_witness :
    (∀ i, i < ([] : List (List Char)).length → sampleEnv.imEmpty i = false) ∧
    (mainAfterLoad exactOps sampleEnv none 1 [] []).median = none ∧
    (mainAfterLoad exactOps sampleEnv none 1 [] []).mean = none :=
  ⟨fun _ _ => rfl,
    ((C10_median_lookup exactOps sampleEnv none 1 [] [] (fun _ _ => rfl)).2.2.2.2 rfl).2⟩

end MonoTum

namespace MonoTum

section Lines

/-- The lines of a text, joined by newlines, give the text back. -/
theorem splitLines_join (cs : List Char) :
    List.intercalate ['\n'] (splitLines cs) = cs := by
  induction cs with
  | nil => rfl
  | cons c cs ih =>
    by_cases hc : c = '\n'
    · subst hc
      obtain ⟨l, ls, hl⟩ := List.exists_cons_of_ne_nil (splitLines_ne_nil cs)
      rw [hl] at ih
      simp only [splitLines, if_true, hl]
      simp only [List.intercalate, List.intersperse, List.flatten] at ih ⊢
      simp [ih]
    · obtain ⟨l, ls, hl⟩ := List.exists_cons_of_ne_nil (splitLines_ne_nil cs)
      rw [hl] at ih
      simp only [splitLines, hc, if_false, hl]
      cases ls with
      | nil =>
        simp only [List.intercalate, List.intersperse, List.flatten] at ih ⊢
        simp at ih ⊢
        exact ih
      | cons l2 ls2 =>
        simp only [List.intercalate, List.intersperse, List.flatten] at ih ⊢
        simp at ih ⊢
        exact ih

/-- No line contains a newline. -/
theorem splitLines_no_newline (cs : List Char) : ∀ l ∈ splitLines cs, '\n' ∉ l := by
  induction cs with
  | nil => simp [splitLines]
  | cons c cs ih =>
    by_cases hc : c = '\n'
    · subst hc
      simp only [splitLines, if_true]
      intro l hl
      rcases List.mem_cons.mp hl with rfl | hl
      · simp
      · exact ih l hl
    · obtain ⟨l0, ls, hl⟩ := List.exists_cons_of_ne_nil (splitLines_ne_nil cs)
      rw [hl] at ih
      simp only [splitLines, hc, if_false, hl]
      intro l hmem
      rcases List.mem_cons.mp hmem with rfl | hmem
      · intro h
        rcases List.mem_cons.mp h with h | h
        · exact hc h.symm
        · exact ih l0 (List.mem_cons_self _ _) h
      · exact ih l (List.mem_cons_of_mem _ hmem)

end Lines

/-- C5, as stated, fails: a line that is not empty always yields a record, but the record
holds the first two fields only when the first is a number within the range of `double`.
The line `abc def` yields the record `(0, "")`, a line that holds one blank yields a
record with an indeterminate timestamp and the empty file name, and the line
`1e5000 x.png` yields `(DBL_MAX, "")`. -/
theorem C5_malformed_line :
    LoadImages 100 (some "# a\n# b\n# c\nabc def\n".toList)
      = some { vstrImageFilenames := [[]], vTimestamps := [some 0] } ∧
    LoadImages 100 (some "# a\n# b\n# c\n \n".toList)
      = some { vstrImageFilenames := [[]], vTimestamps := [none] } ∧
    LoadImages 100 (some "# a\n# b\n# c\n1e5000 x.png\n".toList)
      = some { vstrImageFilenames := [[]], vTimestamps := [some DBL_MAX] } ∧
    ¬ (∀ f1 sep f2 : List Char, f1 ≠ [] → (∀ c ∈ f1, isSpace c = false) →
        sep ≠ [] → (∀ c ∈ sep, isSpace c = true) →
        f2 ≠ [] → (∀ c ∈ f2, isSpace c = false) →
        (parseLine (f1 ++ sep ++ f2)).2 = f2) := by
  refine ⟨by decide!, by decide!, by decide!, ?_⟩
  intro h
  have h1 := h "abc".toList " ".toList "def".toList (by decide) (by decide) (by decide)
    (by decide) (by decide) (by decide)
  have h2 : (parseLine ("abc".toList ++ " ".toList ++ "def".toList)).2 = [] := by decide!
  rw [h2] at h1
  cases h1

/-- C5, amended: on an index file that can be opened, `LoadImages` returns (with enough
fuel), skips the first three lines and every empty line, and produces in file order
exactly one record for each remaining line.  For a remaining line that consists of
optional white space, a first field that is a decimal floating literal (optional sign,
digits with optional point and fraction, optional exponent) of magnitude below
`2^1024 - 2^970`, white space and a second field, the timestamp is the value of the
literal (in exact arithmetic) and the file name is the second field; when the magnitude
is not below that bound the timestamp is `DBL_MAX` with the sign of the literal and the
file name is empty.  The lines are the pieces of the text between newline characters, so
the three header lines never contribute a record. -/
theorem C5_manifest_loader (content : List Char) (fuel : Nat)
    (hfuel : content.length + 2 ≤ fuel) :
    (∃ m, LoadImages fuel (some content) = some m ∧
      m.vstrImageFilenames = (((splitLines content).drop 3).filter
        (fun l => !l.isEmpty)).map (fun l => (parseLine l).2) ∧
      m.vTimestamps = (((splitLines content).drop 3).filter
        (fun l => !l.isEmpty)).map (fun l => (parseLine l).1) ∧
      m.vstrImageFilenames.length = m.vTimestamps.length) ∧
    List.intercalate ['\n'] (splitLines content) = content ∧
    (∀ l ∈ splitLines content, '\n' ∉ l) ∧
    (∀ (pre sep f2 post : List Char) (lit : DecimalLiteral),
      (∀ c ∈ pre, isSpace c = true) →
      lit.wellFormed = true →
      sep ≠ [] → (∀ c ∈ sep, isSpace c = true) →
      f2 ≠ [] → (∀ c ∈ f2, isSpace c = false) →
      (∀ c, post.head? = some c → isSpace c = true) →
      parseLine (pre ++ lit.text ++ sep ++ f2 ++ post) =
        if overflowBound ≤ lit.value then (some DBL_MAX, [])
        else if lit.value ≤ -overflowBound then (some (-DBL_MAX), [])
        else (some lit.value, f2)) ∧
    overflowBound = 2 ^ 1024 - 2 ^ 970 ∧ DBL_MAX = 2 ^ 1024 - 2 ^ 971 := by
  refine ⟨⟨_, LoadImages_opened fuel content hfuel, rfl, rfl, ?_⟩, splitLines_join content,
    splitLines_no_newline content, ?_, by norm_num [overflowBound], by norm_num [DBL_MAX]⟩
  · simp [manifestOfLines]
  · intro pre sep f2 post lit hpre hwf hsep hseps hf2 hf2s hpost
    obtain ⟨hne, hhead⟩ := literal_text_head lit hwf
    have hscan := scanFloat_literal lit hwf
    rw [parseLine_fields pre lit.text sep f2 post hpre hhead hne (by rw [hscan]) hsep hseps
      hf2 hf2s hpost, hscan]
    simp only [convertToV, strtodExact_literal lit hwf]
    by_cases h1 : overflowBound ≤ lit.value
    · simp [h1]
    · by_cases h2 : lit.value ≤ -overflowBound
      · simp [h1, h2]
      · simp [h1, h2]

/-- C5 on an index file with two records and one empty line, and on a line of a TUM index
whose timestamp is `1305031102.175304`. -/
theorem C5_manifest_loader_witness :
    "# a\n# b\n# c\n1.5 a.png\n\n2.5 b.png\n".toList.length + 2 ≤ 40 ∧
    (∃ m, LoadImages 40 (some "# a\n# b\n# c\n1.5 a.png\n\n2.5 b.png\n".toList) = some m ∧
      m.vstrImageFilenames = ["a.png".toList, "b.png".toList] ∧
      m.vTimestamps = [some (3 / 2), some (5 / 2)]) ∧
    parseLine (" ".toList ++ "1305031102.175304".toList ++ " ".toList
        ++ "rgb/1305031102.175304.png".toList ++ "\r".toList)
      = (some (1305031102175304 / 1000000), "rgb/1305031102.175304.png".toList) ∧
    parseLine ("".toList ++ "-1.5E-1".toList ++ "\t ".toList ++ "x.png".toList ++ "".toList)
      = (some (-3 / 20), "x.png".toList) := by
  obtain ⟨⟨m, hm, h1, h2, _⟩, _, _, h3, _⟩ := C5_manifest_loader
    "# a\n# b\n# c\n1.5 a.png\n\n2.5 b.png\n".toList 40 (by decide)
  refine ⟨by decide, ⟨m, hm, ?_, ?_⟩, ?_, ?_⟩
  · rw [h1]; decide!
  · rw [h2]; decide!
  · have h := h3 " ".toList " ".toList "rgb/1305031102.175304.png".toList "\r".toList
      (DecimalLiteral.mk none [1, 3, 0, 5, 0, 3, 1, 1, 0, 2] (some [1, 7, 5, 3, 0, 4]) none false)
      (by decide) (by decide) (by decide) (by decide) (by decide) (by decide) (by decide)
    have e : (DecimalLiteral.mk none [1, 3, 0, 5, 0, 3, 1, 1, 0, 2] (some [1, 7, 5, 3, 0, 4])
        none false).text = "1305031102.175304".toList := by decide
    rw [e] at h
    rw [h]
    decide!
  · have h := h3 "".toList "\t ".toList "x.png".toList "".toList
      (DecimalLiteral.mk (some true) [1] (some [5]) (some (some true, [1])) true)
      (by decide) (by decide) (by decide) (by decide) (by decide) (by decide) (by decide)
    have e : (DecimalLiteral.mk (some true) [1] (some [5]) (some (some true, [1])) true).text
        = "-1.5E-1".toList := by decide
    rw [e] at h
    rw [h]
    decide!

/-- C6 on the code: when the index file cannot be opened, `LoadImages` never returns,
whatever the fuel, and so the run never reaches the playback loop nor an exit status. -/
theorem C6_unreadable_manifest_never_returns {SE3 Mat : Type} (fuel : Nat)
    (uninit : Nat → ℚ) (ops : PoseOps SE3 Mat) (env : SeqEnv SE3)
    (init : Option (List Char)) (imageScale : ℚ) :
    LoadImages fuel none = none ∧
    main fuel 4 none uninit ops env init imageScale = none := by
  refine ⟨LoadImages_unopened fuel, ?_⟩
  simp [main, LoadImages_unopened fuel]

end MonoTum

namespace MonoWebcam

theorem liveLoop_frames (env : LiveEnv) (k : Nat) :
    ∀ (i fuel : Nat) (tr : List Event),
      (∀ j, i ≤ j → j < i + k → env.frameEmpty j = false ∧ toChar (env.waitKey j) ≠ 27) →
      env.frameEmpty (i + k) = true → k < fuel →
      ∃ tr1, liveLoop env fuel i tr = some (tr ++ tr1) ∧
        tr1.filterMap Event.tracked = List.range' i k ∧
        tr1.length = 2 * k ∧ Event.Shutdown ∉ tr1 := by
  induction k with
  | zero =>
    intro i fuel tr _ hempty hfuel
    obtain ⟨f, rfl⟩ : ∃ f, fuel = f + 1 := ⟨fuel - 1, by omega⟩
    refine ⟨[], ?_, rfl, rfl, by simp⟩
    simp only [Nat.add_zero] at hempty
    simp [liveLoop, hempty]
  | succ k ih =>
    intro i fuel tr hvalid hempty hfuel
    obtain ⟨f, rfl⟩ : ∃ f, fuel = f + 1 := ⟨fuel - 1, by omega⟩
    obtain ⟨hfr, hkey⟩ := hvalid i (Nat.le_refl i) (by omega)
    obtain ⟨tr1, h1, h2, h3, h4⟩ := ih (i + 1) f
      (tr ++ [Event.TrackMonocular i (env.now i), Event.Imshow i])
      (fun j hj1 hj2 => hvalid j (by omega) (by omega))
      (by rw [show i + 1 + k = i + (k + 1) by omega]; exact hempty) (by omega)
    refine ⟨Event.TrackMonocular i (env.now i) :: Event.Imshow i :: tr1, ?_, ?_, ?_, ?_⟩
    · simp only [liveLoop, hfr, hkey, if_false, Bool.false_eq_true]
      rw [h1]
      simp
    · simp [List.filterMap_cons, Event.tracked, h2, List.range'_succ]
    · simp [h3]; omega
    · simp [h4]

end MonoWebcam

/-- C9: a capture source that yields `k` valid frames followed by an empty frame, with no
quit key pressed, makes the live loop invoke the tracking engine exactly `k` times (for
frames `0 .. k-1`, in order), terminate, then invoke the engine shutdown followed by the
full-trajectory export, and exit with status 0.  With `k = 1` there is exactly one
tracking call. -/
theorem C9_live_capture_failure (env : MonoWebcam.LiveEnv) (k fuel : Nat)
    (hopen : env.isOpened = true)
    (hvalid : ∀ i, i < k → env.frameEmpty i = false)
    (hkey : ∀ i, i < k → MonoWebcam.toChar (env.waitKey i) ≠ 27)
    (hempty : env.frameEmpty k = true) (hfuel : k < fuel) :
    ∃ tr, MonoWebcam.main fuel 3 env = some (0, tr ++
        [MonoWebcam.Event.Shutdown,
         MonoWebcam.Event.SaveTrajectoryTUM "CameraTrajectory_Webcam.txt".toList,
         MonoWebcam.Event.Release, MonoWebcam.Event.DestroyAllWindows]) ∧
      tr.filterMap MonoWebcam.Event.tracked = List.range k ∧
      (tr.filterMap MonoWebcam.Event.tracked).length = k ∧
      MonoWebcam.Event.Shutdown ∉ tr ∧
      (k = 1 → tr.filterMap MonoWebcam.Event.tracked = [0]) := by
  obtain ⟨tr1, h1, h2, _, h4⟩ := MonoWebcam.liveLoop_frames env k 0 fuel []
    (fun j _ hj => ⟨hvalid j (by omega), hkey j (by omega)⟩)
    (by simpa using hempty) hfuel
  have h2' : tr1.filterMap MonoWebcam.Event.tracked = List.range k := by
    rw [h2, List.range_eq_range']
  refine ⟨tr1, ?_, h2', by simp [h2'], h4, ?_⟩
  · simp only [List.nil_append] at h1
    simp [MonoWebcam.main, hopen, h1]
  · intro hk
    subst hk
    rw [h2']
    rfl

/-- C9 with one valid frame followed by an empty frame. -/
theorem C9_live_capture_failure_witness :
    ∃ tr, MonoWebcam.main 5 3
        { isOpened := true, frameEmpty := fun i => decide (1 ≤ i), now := fun _ => 0,
          waitKey := fun _ => -1 } = some (0, tr ++
        [MonoWebcam.Event.Shutdown,
         MonoWebcam.Event.SaveTrajectoryTUM "CameraTrajectory_Webcam.txt".toList,
         MonoWebcam.Event.Release, MonoWebcam.Event.DestroyAllWindows]) ∧
      tr.filterMap MonoWebcam.Event.tracked = [0] := by
  obtain ⟨tr, h1, _, _, _, h5⟩ := C9_live_capture_failure
    { isOpened := true, frameEmpty := fun i => decide (1 ≤ i), now := fun _ => 0,
      waitKey := fun _ => -1 } 1 5 rfl
    (fun i hi => by
      have : i = 0 := by omega
      subst this
      rfl)
    (fun i _ => by show MonoWebcam.toChar (-1) ≠ 27; decide) rfl (by decide)
  exact ⟨tr, h1, h5 rfl⟩
